import Mathlib

/-!
Verification of the realtime512b spike-sorting pipeline helpers.

This file gives a shallow embedding, in Lean, of the pure algorithmic core of
the repository: nearest-neighbor unit matching (`helpers/unit_matching.py`),
per-segment spike sorting and canonicalization (`helpers/spike_sorting.py`),
epoch aggregation (`helpers/epoch_spike_sorting.py`), the autocorrelogram
(`helpers/generate_preview.py`), and the file-driven stage scheduler
(`start/file_processors.py`, `start/epoch_block_processor.py`,
`start/run_start.py`).  Waveform samples are embedded as rationals, numpy
arrays as lists, and fallible code as `Option`/`Except`.
-/

namespace Realtime512b

/-! ## Basic array operations (numpy counterparts) -/

/-- Squared Euclidean distance between two waveforms of equal width.
Ordering waveforms by squared distance is equivalent to ordering by the
Euclidean distance used by `sklearn.neighbors.NearestNeighbors`. -/
def dist2 (a b : List ℚ) : ℚ :=
  (List.zipWith (fun x y => (x - y) * (x - y)) a b).sum

/-- `np.unique`: the sorted list of distinct values of `ls`. -/
def uniqueSorted (ls : List Int) : List Int :=
  List.insertionSort (· ≤ ·) ls.dedup

/-- `np.max` over a list of naturals (used for argmax over counts). -/
def natMax (ls : List Nat) : Nat := ls.foldr max 0

/-- `np.argmax`: index of the first occurrence of the maximum value. -/
def npArgmax (ls : List Nat) : Nat := ls.findIdx (fun c => c = natMax ls)

/-- The label-selection step of `match_spikes_to_reference`
(`unit_matching.py` lines 74-77): `unique, counts = np.unique(...)`,
`best_label = unique[np.argmax(counts)]`. -/
def bestLabel (ls : List Int) : Int :=
  (uniqueSorted ls).getD (npArgmax ((uniqueSorted ls).map (fun v => ls.count v))) 0

/-- Deterministic comparison of reference rows for the nearest-neighbor
search: first by squared distance to the query, ties broken by row index. -/
def keyLe (keys : List ℚ) (i j : Nat) : Prop :=
  keys.getD i 0 < keys.getD j 0 ∨ (keys.getD i 0 = keys.getD j 0 ∧ i ≤ j)

instance keyLe.decRel (keys : List ℚ) : DecidableRel (keyLe keys) := fun _ _ => by
  unfold keyLe; infer_instance

instance keyLe.isTotal (keys : List ℚ) : IsTotal Nat (keyLe keys) where
  total i j := by
    unfold keyLe
    rcases lt_trichotomy (keys.getD i 0) (keys.getD j 0) with h | h | h
    · exact Or.inl (Or.inl h)
    · rcases Nat.le_total i j with hij | hij
      · exact Or.inl (Or.inr ⟨h, hij⟩)
      · exact Or.inr (Or.inr ⟨h.symm, hij⟩)
    · exact Or.inr (Or.inl h)

instance keyLe.isTrans (keys : List ℚ) : IsTrans Nat (keyLe keys) where
  trans i j k hij hjk := by
    unfold keyLe at *
    rcases hij with h1 | ⟨h1, h1'⟩
    · rcases hjk with h2 | ⟨h2, _⟩
      · exact Or.inl (h1.trans h2)
      · exact Or.inl (h2 ▸ h1)
    · rcases hjk with h2 | ⟨h2, h2'⟩
      · exact Or.inl (h1 ▸ h2)
      · exact Or.inr ⟨h1.trans h2, h1'.trans h2'⟩

/-- Stable argsort of a list of keys: the permutation of `[0, …, n-1]` sorted
by `(key, index)`.  Embeds `np.argsort` (with a deterministic tie rule). -/
def argsortStable (keys : List ℚ) : List Nat :=
  List.insertionSort (keyLe keys) (List.range keys.length)

/-- `nearest_neighbors` (`unit_matching.py` lines 7-27) for a single query
row: the indices of the `k` reference rows nearest to `q` under Euclidean
distance, nearest first. -/
def kNearest (refs : List (List ℚ)) (q : List ℚ) (k : Nat) : List Nat :=
  (argsortStable (refs.map (fun r => dist2 q r))).take k

/-! ## `match_spikes_to_reference` (`unit_matching.py` lines 30-79) -/

/-- The labels of the `k` nearest reference rows of a query row
(`reference_labels[nearest_inds[i]]` in the Python code). -/
def neighborLabels (reference_frames : List (List ℚ)) (reference_labels : List Int)
    (q : List ℚ) (k : Nat) : List Int :=
  (kNearest reference_frames q k).map (fun i => reference_labels.getD i 0)

/-- `match_spikes_to_reference(spike_frames, reference_frames,
reference_labels, n_neighbors)`.  Returns `none` when the Python code raises
(`ValueError` on empty reference frames); otherwise the matched label for each
spike row: the majority label among its `min(n_neighbors, len(reference))`
nearest reference rows, computed exactly as in the Python loop. -/
def match_spikes_to_reference (spike_frames reference_frames : List (List ℚ))
    (reference_labels : List Int) (n_neighbors : Nat) : Option (List Int) :=
  if spike_frames.length = 0 then some []
  else if reference_frames.length = 0 then none
  else some (spike_frames.map (fun q =>
    bestLabel (neighborLabels reference_frames reference_labels q
      (min n_neighbors reference_frames.length))))

/-! ## Properties of the majority-vote step -/

lemma natMax_ge (ls : List Nat) : ∀ c ∈ ls, c ≤ natMax ls := by
  induction ls with
  | nil => intro c hc; cases hc
  | cons a t ih =>
    intro c hc
    rcases List.mem_cons.mp hc with rfl | hc
    · exact le_max_left _ _
    · exact le_trans (ih c hc) (le_max_right _ _)

lemma natMax_mem (ls : List Nat) (h : ls ≠ []) : natMax ls ∈ ls := by
  induction ls with
  | nil => exact absurd rfl h
  | cons a t ih =>
    by_cases ht : t = []
    · subst ht; simp [natMax]
    · rcases Nat.le_total (natMax t) a with hle | hle
      · have : natMax (a :: t) = a := by
          simp only [natMax, List.foldr]
          exact max_eq_left hle
        rw [this]; exact List.mem_cons_self _ _
      · have : natMax (a :: t) = natMax t := by
          simp only [natMax, List.foldr]
          exact max_eq_right hle
        rw [this]; exact List.mem_cons.mpr (Or.inr (ih ht))

lemma uniqueSorted_perm_dedup (ls : List Int) : (uniqueSorted ls).Perm ls.dedup :=
  List.perm_insertionSort _ _

lemma mem_uniqueSorted {x : Int} {ls : List Int} : x ∈ uniqueSorted ls ↔ x ∈ ls := by
  rw [(uniqueSorted_perm_dedup ls).mem_iff, List.mem_dedup]

lemma uniqueSorted_sorted (ls : List Int) : List.Sorted (· ≤ ·) (uniqueSorted ls) :=
  List.sorted_insertionSort _ _

lemma uniqueSorted_nodup (ls : List Int) : (uniqueSorted ls).Nodup :=
  (uniqueSorted_perm_dedup ls).nodup_iff.mpr (List.nodup_dedup ls)

lemma uniqueSorted_ne_nil {ls : List Int} (h : ls ≠ []) : uniqueSorted ls ≠ [] := by
  rcases List.exists_mem_of_ne_nil ls h with ⟨x, hx⟩
  intro hnil
  exact absurd (mem_uniqueSorted.mpr hx) (by rw [hnil]; exact List.not_mem_nil x)

/-- The index chosen by `np.argmax` over the per-unique-label counts. -/
lemma bestLabel_spec (ls : List Int) (h : ls ≠ []) :
    ∃ (j : Nat) (hj : j < (uniqueSorted ls).length),
      bestLabel ls = (uniqueSorted ls).get ⟨j, hj⟩ ∧
      ls.count ((uniqueSorted ls).get ⟨j, hj⟩) =
        natMax ((uniqueSorted ls).map (fun v => ls.count v)) ∧
      ∀ i (hi : i < (uniqueSorted ls).length), i < j →
        ls.count ((uniqueSorted ls).get ⟨i, hi⟩) ≠
          natMax ((uniqueSorted ls).map (fun v => ls.count v)) := by
  set us := uniqueSorted ls with hus
  set counts := us.map (fun v => ls.count v) with hcounts
  have hcne : counts ≠ [] := by
    intro hc
    exact uniqueSorted_ne_nil h (by simpa [hcounts] using congrArg List.length hc)
  have hex : ∃ c ∈ counts, (decide (c = natMax counts)) = true :=
    ⟨natMax counts, natMax_mem _ hcne, by simp⟩
  have hjlt : List.findIdx (fun c => c = natMax counts) counts < counts.length :=
    List.findIdx_lt_length_of_exists hex
  set j := List.findIdx (fun c => c = natMax counts) counts with hjdef
  have hjus : j < us.length := by simpa [hcounts] using hjlt
  refine ⟨j, hjus, ?_, ?_, ?_⟩
  · show bestLabel ls = us.get ⟨j, hjus⟩
    unfold bestLabel
    rw [← hus, ← hcounts]
    have hnp : npArgmax counts = j := rfl
    rw [hnp]
    exact List.getD_eq_getElem us 0 hjus
  · have := List.findIdx_getElem (w := hjlt)
    have hcj : counts.get ⟨j, hjlt⟩ = natMax counts := by
      simpa using this
    have : counts.get ⟨j, hjlt⟩ = ls.count (us.get ⟨j, hjus⟩) := by
      simp [hcounts]
    rw [← this, hcj]
  · intro i hi hij
    have hic : i < counts.length := by simpa [hcounts] using hi
    have harg : i < List.findIdx (fun c => decide (c = natMax counts)) counts := by
      rw [← hjdef]; exact hij
    have hne := List.not_of_lt_findIdx harg
    intro heq
    have hgc : counts.get ⟨i, hic⟩ = ls.count (us.get ⟨i, hi⟩) := by simp [hcounts]
    have hfalse : (decide (counts.get ⟨i, hic⟩ = natMax counts)) = false := hne
    rw [decide_eq_false_iff_not] at hfalse
    exact hfalse (by rw [hgc]; exact heq)

/-- `bestLabel ls` is an element of `ls`. -/
lemma bestLabel_mem {ls : List Int} (h : ls ≠ []) : bestLabel ls ∈ ls := by
  rcases bestLabel_spec ls h with ⟨j, hj, heq, -, -⟩
  rw [heq]
  exact mem_uniqueSorted.mp (List.get_mem _ _ _)

/-- `bestLabel ls` attains the maximal multiplicity in `ls`. -/
lemma bestLabel_count_ge {ls : List Int} (h : ls ≠ []) :
    ∀ x ∈ ls, ls.count x ≤ ls.count (bestLabel ls) := by
  rcases bestLabel_spec ls h with ⟨j, hj, heq, hmax, -⟩
  intro x hx
  rw [heq, hmax]
  have hxu : x ∈ uniqueSorted ls := mem_uniqueSorted.mpr hx
  exact natMax_ge _ _ (List.mem_map.mpr ⟨x, hxu, rfl⟩)

/-- Among the labels of maximal multiplicity, `bestLabel ls` is the least:
the argmax over the sorted unique labels is stable. -/
lemma bestLabel_min_of_tie {ls : List Int} (h : ls ≠ []) :
    ∀ x ∈ ls, ls.count x = ls.count (bestLabel ls) → bestLabel ls ≤ x := by
  rcases bestLabel_spec ls h with ⟨j, hj, heq, hmax, hfirst⟩
  intro x hx hcnt
  have hxu : x ∈ uniqueSorted ls := mem_uniqueSorted.mpr hx
  rcases List.mem_iff_get.mp hxu with ⟨⟨i, hi⟩, hgi⟩
  rcases Nat.lt_or_ge i j with hij | hij
  · exfalso
    apply hfirst i hi hij
    rw [hgi, hcnt, heq, hmax]
  · rw [heq, ← hgi]
    exact (uniqueSorted_sorted ls).rel_get_of_le (a := ⟨j, hj⟩) (b := ⟨i, hi⟩) hij

/-! ## Properties of the k-nearest-neighbor selection -/

lemma argsortStable_perm (keys : List ℚ) :
    (argsortStable keys).Perm (List.range keys.length) :=
  List.perm_insertionSort _ _

lemma argsortStable_sorted (keys : List ℚ) :
    List.Sorted (keyLe keys) (argsortStable keys) :=
  List.sorted_insertionSort _ _

lemma argsortStable_length (keys : List ℚ) :
    (argsortStable keys).length = keys.length := by
  simpa using (argsortStable_perm keys).length_eq

lemma mem_argsortStable {keys : List ℚ} {i : Nat} :
    i ∈ argsortStable keys ↔ i < keys.length := by
  rw [(argsortStable_perm keys).mem_iff, List.mem_range]

lemma kNearest_length (refs : List (List ℚ)) (q : List ℚ) (k : Nat) :
    (kNearest refs q k).length = min k refs.length := by
  unfold kNearest
  rw [List.length_take, argsortStable_length, List.length_map]

lemma kNearest_mem_lt (refs : List (List ℚ)) (q : List ℚ) (k : Nat) :
    ∀ i ∈ kNearest refs q k, i < refs.length := by
  intro i hi
  have : i ∈ argsortStable (refs.map (fun r => dist2 q r)) :=
    List.mem_of_mem_take hi
  simpa using mem_argsortStable.mp this

/-- The selected indices really are the nearest ones: any chosen reference row
is at least as close to the query as any unchosen one. -/
lemma kNearest_nearest (refs : List (List ℚ)) (q : List ℚ) (k : Nat) :
    ∀ a ∈ kNearest refs q k, ∀ b, b < refs.length → b ∉ kNearest refs q k →
      dist2 q (refs.getD a []) ≤ dist2 q (refs.getD b []) := by
  intro a ha b hb hbn
  set keys := refs.map (fun r => dist2 q r) with hkeys
  have hsorted := argsortStable_sorted keys
  have hsplit := List.take_append_drop k (argsortStable keys)
  have hpw : List.Pairwise (keyLe keys) (List.take k (argsortStable keys) ++
      List.drop k (argsortStable keys)) := by
    rw [hsplit]; exact hsorted
  have hbmem : b ∈ argsortStable keys := by
    rw [mem_argsortStable, hkeys, List.length_map]; exact hb
  have hbdrop : b ∈ List.drop k (argsortStable keys) := by
    rcases (List.mem_append.mp (by rw [hsplit]; exact hbmem)) with h | h
    · exact absurd h hbn
    · exact h
  have hrel : keyLe keys a b :=
    (List.pairwise_append.mp hpw).2.2 a ha b hbdrop
  have halt : a < refs.length := kNearest_mem_lt refs q k a ha
  have hka : keys.getD a 0 = dist2 q (refs.getD a []) := by
    rw [hkeys, List.getD_eq_getElem _ _ (by simpa using halt),
      List.getElem_map, List.getD_eq_getElem _ _ halt]
  have hkb : keys.getD b 0 = dist2 q (refs.getD b []) := by
    rw [hkeys, List.getD_eq_getElem _ _ (by simpa using hb),
      List.getElem_map, List.getD_eq_getElem _ _ hb]
  rcases hrel with h | ⟨h, -⟩
  · rw [← hka, ← hkb]; exact le_of_lt h
  · rw [← hka, ← hkb, h]

lemma neighborLabels_length (refs : List (List ℚ)) (labels : List Int) (q : List ℚ) (k : Nat) :
    (neighborLabels refs labels q k).length = min k refs.length := by
  unfold neighborLabels
  rw [List.length_map, kNearest_length]

lemma neighborLabels_ne_nil {refs : List (List ℚ)} (labels : List Int) (q : List ℚ)
    {k : Nat} (href : refs ≠ []) (hk : 0 < k) :
    neighborLabels refs labels q k ≠ [] := by
  have hlen := neighborLabels_length refs labels q k
  intro hnil
  rw [hnil] at hlen
  have : 0 < refs.length := List.length_pos.mpr href
  simp only [List.length_nil] at hlen
  omega

lemma neighborLabels_mem {refs : List (List ℚ)} {labels : List Int} {q : List ℚ} {k : Nat}
    (hlab : labels.length = refs.length) :
    ∀ l ∈ neighborLabels refs labels q k, l ∈ labels := by
  intro l hl
  rcases List.mem_map.mp hl with ⟨i, hi, rfl⟩
  have := kNearest_mem_lt refs q k i hi
  rw [List.getD_eq_getElem _ _ (by omega)]
  exact List.getElem_mem _

/-- C1: `match_spikes_to_reference` on a non-empty reference catalog returns
one label per query row; the label of each query is the majority label of the
query's `min(k, len(R))` nearest reference rows under Euclidean distance
(the chosen rows are all at distance no larger than any unchosen row), the
majority is the label of maximal multiplicity among the neighbors with ties
broken in favor of the lowest label value, and every returned label occurs
among the reference labels. -/
theorem C1_classify_knn_majority (queries refs : List (List ℚ)) (labels : List Int)
    (k : Nat) (href : refs ≠ []) (hk : 0 < k) (hlab : labels.length = refs.length) :
    ∃ out, match_spikes_to_reference queries refs labels k = some out ∧
      out.length = queries.length ∧
      (∀ l ∈ out, l ∈ labels) ∧
      (∀ i, i < queries.length →
        ((kNearest refs (queries.getD i []) (min k refs.length)).length = min k refs.length ∧
         0 < min k refs.length ∧
         (∀ a ∈ kNearest refs (queries.getD i []) (min k refs.length), a < refs.length) ∧
         (∀ a ∈ kNearest refs (queries.getD i []) (min k refs.length), ∀ b, b < refs.length →
            b ∉ kNearest refs (queries.getD i []) (min k refs.length) →
            dist2 (queries.getD i []) (refs.getD a []) ≤
              dist2 (queries.getD i []) (refs.getD b []))) ∧
        (let nl := neighborLabels refs labels (queries.getD i []) (min k refs.length)
         out.getD i 0 = bestLabel nl ∧
         bestLabel nl ∈ nl ∧
         (∀ x ∈ nl, nl.count x ≤ nl.count (bestLabel nl)) ∧
         (∀ x ∈ nl, nl.count x = nl.count (bestLabel nl) → bestLabel nl ≤ x))) := by
  have hrlen : refs.length ≠ 0 := fun h => href (List.eq_nil_of_length_eq_zero h)
  have hout : match_spikes_to_reference queries refs labels k =
      some (queries.map (fun q =>
        bestLabel (neighborLabels refs labels q (min k refs.length)))) := by
    unfold match_spikes_to_reference
    by_cases hq : queries.length = 0
    · rw [if_pos hq]
      have : queries = [] := List.eq_nil_of_length_eq_zero hq
      rw [this]
      rfl
    · rw [if_neg hq, if_neg hrlen]
  refine ⟨_, hout, by rw [List.length_map], ?_, ?_⟩
  · intro l hl
    rcases List.mem_map.mp hl with ⟨q, -, rfl⟩
    have hne := neighborLabels_ne_nil labels q href (Nat.lt_min.mpr ⟨hk, Nat.pos_of_ne_zero hrlen⟩)
    exact neighborLabels_mem hlab _ (bestLabel_mem hne)
  · intro i hi
    have hkmin : 0 < min k refs.length :=
      Nat.lt_min.mpr ⟨hk, Nat.pos_of_ne_zero hrlen⟩
    refine ⟨⟨by rw [kNearest_length]; exact min_eq_left (min_le_right _ _),
      hkmin, kNearest_mem_lt _ _ _, kNearest_nearest _ _ _⟩, ?_⟩
    have hne := neighborLabels_ne_nil labels (queries.getD i []) href hkmin
    refine ⟨?_, bestLabel_mem hne, bestLabel_count_ge hne, bestLabel_min_of_tie hne⟩
    rw [List.getD_eq_getElem _ _ (by rw [List.length_map]; exact hi), List.getElem_map,
      List.getD_eq_getElem _ _ hi]

/-- Witness for C1 at a concrete input: two reference rows with labels 5 and
7, one query row, `k = 10`; the hypotheses of `C1_classify_knn_majority` are
discharged by computation and the matcher returns exactly one label drawn
from the reference label set. -/
theorem C1_classify_knn_majority_witness :
    (([[0], [3]] : List (List ℚ)) ≠ [] ∧ 0 < 10 ∧
      ([5, 7] : List Int).length = ([[0], [3]] : List (List ℚ)).length) ∧
    ∃ out, match_spikes_to_reference [[0]] [[0], [3]] [5, 7] 10 = some out ∧
      out.length = 1 ∧ ∀ l ∈ out, l ∈ ([5, 7] : List Int) := by
  refine ⟨⟨by decide, by decide, by decide⟩, ?_⟩
  rcases C1_classify_knn_majority [[0]] [[0], [3]] [5, 7] 10 (by decide) (by decide)
    (by decide) with ⟨out, h1, h2, h3, -⟩
  exact ⟨out, h1, by simpa using h2, h3⟩

/-! ## `compute_spike_sorting` (`spike_sorting.py` lines 8-134) -/

/-- Python `int(x)`: truncation toward zero. -/
def pyInt (x : ℚ) : Int := if 0 ≤ x then ⌊x⌋ else ⌈x⌉

/-- Whether frame `i` lies in one of the high-activity intervals, after the
frame-index conversion and clamping of `spike_sorting.py` lines 52-57. -/
def inHighActivity (intervals : List (ℚ × ℚ)) (fs : ℚ) (numFrames i : Nat) : Bool :=
  intervals.any (fun iv =>
    let s := max 0 (pyInt (iv.1 * fs))
    let e := min (numFrames : Int) (pyInt (iv.2 * fs))
    decide (s ≤ (i : Int)) && decide ((i : Int) < e))

/-- Minimum of a list of rationals (`np.min`; the Python call requires a
non-empty array, for which we return the junk value `0`). -/
def qMin : List ℚ → ℚ
  | [] => 0
  | a :: t => t.foldl min a

/-- `np.argmin` over a waveform: index of the first occurrence of the
minimum value. -/
def npArgminQ (l : List ℚ) : Nat := l.findIdx (fun v => v = qMin l)

/-- `np.median` of a list: middle element of the sorted list, or the mean of
the two middle elements for even length. -/
def median (l : List ℚ) : ℚ :=
  let s := List.insertionSort (· ≤ ·) l
  let n := s.length
  if n = 0 then 0
  else if n % 2 = 1 then s.getD (n / 2) 0
  else (s.getD (n / 2 - 1) 0 + s.getD (n / 2) 0) / 2

/-- Whether `data[i]` is minimal on the index window of radius `w` around
`i`. -/
def isLocalMin (data : List ℚ) (i w : Nat) : Bool :=
  (List.range data.length).all (fun j =>
    if i - w ≤ j ∧ j ≤ i + w then decide (data.getD i 0 ≤ data.getD j 0) else true)

/-- Modelled from the spec: `detect_spikes_single_channel` lives in
`helpers/coarse_sorting.py`, which is not among the provided sources (only
its import in `spike_sorting.py` is).  Following the spec, candidate spikes
are local extrema of the trace crossing the negative threshold, with a
minimum refractory window of `windowSize` frames enforced between accepted
events. -/
def detect_spikes_single_channel (data : List ℚ) (threshold : ℚ) (windowSize : Nat) :
    List Nat :=
  (List.range data.length).foldl
    (fun acc i =>
      if (decide (data.getD i 0 ≤ threshold) && isLocalMin data i windowSize &&
          (match acc.getLast? with
           | none => true
           | some l => decide (l + windowSize < i))) = true
      then acc ++ [i] else acc) []

/-- The masked data of `spike_sorting.py` lines 51-61: rows inside a
high-activity interval are zeroed. -/
def lowActivityData (shifted_data : List (List ℚ)) (intervals : List (ℚ × ℚ))
    (fs : ℚ) : List (List ℚ) :=
  (List.range shifted_data.length).map (fun i =>
    if inHighActivity intervals fs shifted_data.length i
    then (shifted_data.getD i []).map (fun _ => 0)
    else shifted_data.getD i [])

/-- The spike detection pipeline of `spike_sorting.py` lines 51-70: mask the
high-activity frames, take the per-frame minimum across channels, and run the
single-channel detector with window size 10. -/
def detectedSpikeIndices (shifted_data : List (List ℚ)) (intervals : List (ℚ × ℚ))
    (fs : ℚ) (detect_threshold : ℚ) : List Nat :=
  detect_spikes_single_channel ((lowActivityData shifted_data intervals fs).map qMin)
    detect_threshold 10

/-- Modelled from the spec: `compute_template_peak_channel_x_coordinate` lives
in the missing `helpers/coarse_sorting.py`.  Per the spec it computes, for
each template, the x-coordinate (from the electrode geometry) of the
template's peak (minimum) channel; the Python caller keeps column 0 (the
x-coordinate), which is what we return directly. -/
def peakXCoord (coords : List (ℚ × ℚ)) (t : List ℚ) : ℚ :=
  (coords.getD (npArgminQ t) (0, 0)).1

/-- The `old_to_new` label remap of `spike_sorting.py` lines 121-126, as a
function: `old_to_new[sorted_labels[old_idx]] = sorted_labels[new_idx]` for
`sorted_indices[new_idx] = old_idx`; a label outside the assignments keeps
the array's zero initialization. -/
def canonOldToNew (us : List Int) (σ : List Nat) (l : Int) : Int :=
  match (List.range σ.length).findIdx? (fun j => us.getD (σ.getD j 0) 0 = l) with
  | some j => us.getD j 0
  | none => 0

/-- The canonical reorder-and-remap of `spike_sorting.py` lines 115-129:
argsort the templates by peak-channel x-coordinate, permute the template rows
accordingly, and remap every spike label through the same permutation of the
sorted unique labels. -/
def canonicalize (templates : List (List ℚ)) (labels : List Int)
    (coords : List (ℚ × ℚ)) : List (List ℚ) × List Int :=
  let σ := argsortStable (templates.map (peakXCoord coords))
  (σ.map (fun i => templates.getD i []),
    labels.map (canonOldToNew (uniqueSorted labels) σ))

/-- The per-label median templates of `spike_sorting.py` lines 104-113: one
row per sorted unique label, each channel the median over the spikes carrying
that label. -/
def medianTemplates (frames : List (List ℚ)) (spike_labels : List Int)
    (num_channels : Nat) : List (List ℚ) :=
  (uniqueSorted spike_labels).map (fun label =>
    (List.range num_channels).map (fun c =>
      median (((frames.zip spike_labels).filter (fun p => p.2 = label)).map
        (fun p => p.1.getD c 0))))

/-- `compute_spike_sorting` (`spike_sorting.py` lines 8-134).  Returns
`(templates, spike_times, spike_labels, spike_amplitudes)`, or `none` when
the Python code raises (the empty-reference `ValueError` from
`match_spikes_to_reference`). -/
def compute_spike_sorting (shifted_data : List (List ℚ))
    (high_activity_intervals : List (ℚ × ℚ))
    (reference_spike_frames : List (List ℚ)) (reference_spike_labels : List Int)
    (sampling_frequency_hz : ℚ) (electrode_coords : List (ℚ × ℚ))
    (detect_threshold : ℚ) :
    Option (List (List ℚ) × List ℚ × List Int × List ℚ) :=
  let dataLow := lowActivityData shifted_data high_activity_intervals sampling_frequency_hz
  let spike_inds := detectedSpikeIndices shifted_data high_activity_intervals
    sampling_frequency_hz detect_threshold
  if spike_inds = [] then some ([], [], [], [])
  else
    let frames := spike_inds.map (fun i => dataLow.getD i [])
    match match_spikes_to_reference frames reference_spike_frames
        reference_spike_labels 10 with
    | none => none
    | some spike_labels =>
      let num_channels := (shifted_data.headD []).length
      let spike_amplitudes := frames.map (fun f => - qMin f)
      let templates := medianTemplates frames spike_labels num_channels
      let canon :=
        if 0 < (uniqueSorted spike_labels).length
        then canonicalize templates spike_labels electrode_coords
        else (templates, spike_labels)
      let spike_times := spike_inds.map (fun i => (i : ℚ) / sampling_frequency_hz)
      some (canon.1, spike_times, canon.2, spike_amplitudes)

/-- Counterexample to C2 as stated: the claim asserts that for *every* query
set `Q` the classifier raises when the reference waveform set is empty, but
`match_spikes_to_reference` returns an empty label array (no error) for an
empty query set even with an empty reference catalog, because the empty-query
early return (line 58) precedes the empty-reference check (line 61). -/
theorem C2_empty_reference_counterexample :
    match_spikes_to_reference [] [] [] 10 = some [] := by rfl

/-- C2 (amended): classification with an empty reference catalog raises for
every *non-empty* query set (an empty query set returns an empty label array
without consulting the reference).  A segment with zero detected spikes is
not an error: `compute_spike_sorting` returns a shape-`(0, n_channels)`
template array and empty times/labels/amplitudes, without calling the
classifier (the result holds even when the reference catalog is empty, which
would make any classifier call raise) and without raising. -/
theorem C2_empty_reference_and_zero_spikes
    (queries : List (List ℚ)) (labels : List Int) (k : Nat)
    (shifted_data : List (List ℚ)) (intervals : List (ℚ × ℚ))
    (refs : List (List ℚ)) (rlabels : List Int)
    (fs : ℚ) (coords : List (ℚ × ℚ)) (thr : ℚ)
    (hq : queries ≠ [])
    (hdet : detectedSpikeIndices shifted_data intervals fs thr = []) :
    match_spikes_to_reference queries [] labels k = none ∧
    compute_spike_sorting shifted_data intervals refs rlabels fs coords thr =
      some ([], [], [], []) := by
  constructor
  · unfold match_spikes_to_reference
    rw [if_neg (fun h => hq (List.eq_nil_of_length_eq_zero h))]
    simp
  · unfold compute_spike_sorting
    rw [hdet]
    rfl

/-- Witness for the amended C2: one non-empty query against an empty
reference, and a two-frame all-zero segment (no sample below the `-80`
threshold, hence zero detected spikes) sorted against an empty reference. -/
theorem C2_empty_reference_and_zero_spikes_witness :
    (([[0]] : List (List ℚ)) ≠ [] ∧
      detectedSpikeIndices [[0], [0]] [] 20000 (-80) = []) ∧
    match_spikes_to_reference [[0]] [] [] 10 = none ∧
    compute_spike_sorting [[0], [0]] [] [] [] 20000 [] (-80) =
      some ([], [], [], []) := by
  refine ⟨⟨by decide, by decide⟩, ?_⟩
  exact C2_empty_reference_and_zero_spikes [[0]] [] 10 [[0], [0]] [] [] [] 20000 [] (-80)
    (by decide) (by decide)

/-! ## Canonicalization: ordering, label correspondence, idempotence (C3) -/

instance keyLe.isRefl (keys : List ℚ) : IsRefl Nat (keyLe keys) where
  refl i := Or.inr ⟨rfl, le_refl i⟩

lemma argsortStable_nodup (keys : List ℚ) : (argsortStable keys).Nodup :=
  (argsortStable_perm keys).nodup_iff.mpr (List.nodup_range _)

lemma argsortStable_getD_lt (keys : List ℚ) {j : Nat}
    (hj : j < (argsortStable keys).length) :
    (argsortStable keys).getD j 0 < keys.length := by
  rw [List.getD_eq_getElem _ _ hj]
  exact mem_argsortStable.mp (List.getElem_mem hj)

lemma argsortStable_getD_inj (keys : List ℚ) {j j' : Nat}
    (hj : j < (argsortStable keys).length) (hj' : j' < (argsortStable keys).length)
    (h : (argsortStable keys).getD j 0 = (argsortStable keys).getD j' 0) : j = j' := by
  rw [List.getD_eq_getElem _ _ hj, List.getD_eq_getElem _ _ hj'] at h
  exact ((argsortStable_nodup keys).getElem_inj_iff).mp h

lemma argsortStable_surj (keys : List ℚ) {i : Nat} (hi : i < keys.length) :
    ∃ j, ∃ (hj : j < (argsortStable keys).length), (argsortStable keys).getD j 0 = i := by
  have : i ∈ argsortStable keys := mem_argsortStable.mpr hi
  rcases List.mem_iff_getElem.mp this with ⟨j, hj, hji⟩
  exact ⟨j, hj, by rw [List.getD_eq_getElem _ _ hj]; exact hji⟩

/-- Monotonicity of the sort keys along the argsort. -/
lemma argsortStable_mono (keys : List ℚ) {j j' : Nat} (hle : j ≤ j')
    (hj' : j' < (argsortStable keys).length) :
    keys.getD ((argsortStable keys).getD j 0) 0 ≤
      keys.getD ((argsortStable keys).getD j' 0) 0 := by
  have hj : j < (argsortStable keys).length := lt_of_le_of_lt hle hj'
  have hrel : keyLe keys ((argsortStable keys).get ⟨j, hj⟩)
      ((argsortStable keys).get ⟨j', hj'⟩) :=
    (argsortStable_sorted keys).rel_get_of_le (a := ⟨j, hj⟩) (b := ⟨j', hj'⟩) hle
  rw [List.getD_eq_getElem _ _ hj, List.getD_eq_getElem _ _ hj']
  rcases hrel with h | ⟨h, -⟩
  · exact le_of_lt h
  · exact le_of_eq h

lemma getD_inj_of_nodup {α : Type} {l : List α} {d : α} (hn : l.Nodup) {i i' : Nat}
    (hi : i < l.length) (hi' : i' < l.length) (h : l.getD i d = l.getD i' d) : i = i' := by
  rw [List.getD_eq_getElem _ _ hi, List.getD_eq_getElem _ _ hi'] at h
  exact (hn.getElem_inj_iff).mp h

lemma mem_getD_uniqueSorted {ls : List Int} {x : Int} (hx : x ∈ ls) :
    ∃ i, ∃ (hi : i < (uniqueSorted ls).length), (uniqueSorted ls).getD i 0 = x := by
  rcases List.mem_iff_getElem.mp (mem_uniqueSorted.mpr hx) with ⟨i, hi, hix⟩
  exact ⟨i, hi, by rw [List.getD_eq_getElem _ _ hi]; exact hix⟩

/-- The remap sends the label of the unit moved from old template row
`σ[j]` to the label of its new row `j`. -/
lemma canonOldToNew_apply (us : List Int) (σ : List Nat) (hn : us.Nodup)
    (hσ : σ.Nodup) (hbound : ∀ j, j < σ.length → σ.getD j 0 < us.length)
    {j : Nat} (hj : j < σ.length) :
    canonOldToNew us σ (us.getD (σ.getD j 0) 0) = us.getD j 0 := by
  set p : Nat → Bool :=
    fun j' => decide (us.getD (σ.getD j' 0) 0 = us.getD (σ.getD j 0) 0) with hp
  have hpj : p j = true := by simp [hp]
  have huniq : ∀ j', j' < σ.length → p j' = true → j' = j := by
    intro j' hj' hpj'
    have heq : us.getD (σ.getD j' 0) 0 = us.getD (σ.getD j 0) 0 := by
      simpa [hp] using hpj'
    exact getD_inj_of_nodup hσ hj' hj
      (getD_inj_of_nodup hn (hbound j' hj') (hbound j hj) heq)
  have hex : ∃ x ∈ List.range σ.length, p x = true :=
    ⟨j, List.mem_range.mpr hj, hpj⟩
  have hlt : List.findIdx p (List.range σ.length) < (List.range σ.length).length :=
    List.findIdx_lt_length_of_exists hex
  have hfp := List.findIdx_getElem (w := hlt)
  rw [List.getElem_range _ hlt] at hfp
  have hfj : List.findIdx p (List.range σ.length) = j :=
    huniq _ (by simpa using hlt) hfp
  have hsome : (List.range σ.length).findIdx? p = some j :=
    List.findIdx?_eq_some_iff_findIdx_eq.mpr ⟨by simpa using hj, hfj⟩
  unfold canonOldToNew
  rw [hsome]

lemma peakKeys_getD (T : List (List ℚ)) (coords : List (ℚ × ℚ)) {i : Nat}
    (hi : i < T.length) :
    (T.map (peakXCoord coords)).getD i 0 = peakXCoord coords (T.getD i []) := by
  rw [List.getD_eq_getElem _ _ (by simpa using hi), List.getElem_map,
    List.getD_eq_getElem _ _ hi]

lemma mapGetD_getD {α : Type} (σ : List Nat) (T : List α) (d : α) {j : Nat}
    (hj : j < σ.length) :
    (σ.map (fun i => T.getD i d)).getD j d = T.getD (σ.getD j 0) d := by
  rw [List.getD_eq_getElem _ _ (by simpa using hj), List.getElem_map,
    List.getD_eq_getElem σ 0 hj]

lemma range_map_getD {α : Type} (l : List α) (d : α) :
    (List.range l.length).map (fun i => l.getD i d) = l := by
  apply List.ext_getElem (by simp)
  intro i h1 h2
  simp only [List.getElem_map, List.getElem_range, List.getD_eq_getElem l d h2]

lemma canonicalize_fst (T : List (List ℚ)) (L : List Int) (coords : List (ℚ × ℚ)) :
    (canonicalize T L coords).1 =
      (argsortStable (T.map (peakXCoord coords))).map (fun i => T.getD i []) := rfl

lemma canonicalize_snd (T : List (List ℚ)) (L : List Int) (coords : List (ℚ × ℚ)) :
    (canonicalize T L coords).2 =
      L.map (canonOldToNew (uniqueSorted L) (argsortStable (T.map (peakXCoord coords)))) := rfl

lemma canonicalize_fst_length (T : List (List ℚ)) (L : List Int) (coords : List (ℚ × ℚ)) :
    (canonicalize T L coords).1.length = T.length := by
  rw [canonicalize_fst, List.length_map, argsortStable_length, List.length_map]

/-- Part (a) of canonicalization: after the reorder, the peak-channel
x-coordinates of successive templates are non-decreasing. -/
lemma canonicalize_sorted (T : List (List ℚ)) (L : List Int) (coords : List (ℚ × ℚ))
    {j j' : Nat} (hle : j ≤ j') (hj' : j' < T.length) :
    peakXCoord coords ((canonicalize T L coords).1.getD j []) ≤
      peakXCoord coords ((canonicalize T L coords).1.getD j' []) := by
  have hklen : (T.map (peakXCoord coords)).length = T.length := List.length_map _ _
  have hσlen : (argsortStable (T.map (peakXCoord coords))).length = T.length := by
    rw [argsortStable_length, hklen]
  have hj : j < T.length := lt_of_le_of_lt hle hj'
  rw [canonicalize_fst, mapGetD_getD _ _ _ (by rw [hσlen]; exact hj),
    mapGetD_getD _ _ _ (by rw [hσlen]; exact hj')]
  have hmono := argsortStable_mono (T.map (peakXCoord coords)) hle
    (by rw [hσlen]; exact hj')
  rwa [peakKeys_getD _ _ (by rw [← hklen]; exact argsortStable_getD_lt _ (by rw [hσlen]; exact hj)),
    peakKeys_getD _ _ (by rw [← hklen]; exact argsortStable_getD_lt _ (by rw [hσlen]; exact hj'))]
    at hmono

lemma range_getD {n j : Nat} (hj : j < n) : (List.range n).getD j 0 = j := by
  rw [List.getD_eq_getElem _ _ (by simpa using hj)]
  exact List.getElem_range _ _

/-- The output label multiset of the canonical remap draws from the same
label set as the input. -/
lemma canonicalize_label_mem (T : List (List ℚ)) (L : List Int) (coords : List (ℚ × ℚ))
    (hm : T.length = (uniqueSorted L).length) (x : Int) :
    x ∈ (canonicalize T L coords).2 ↔ x ∈ uniqueSorted L := by
  have hklen : (T.map (peakXCoord coords)).length = T.length := List.length_map _ _
  have hσlen : (argsortStable (T.map (peakXCoord coords))).length = T.length := by
    rw [argsortStable_length, hklen]
  have hbound : ∀ j, j < (argsortStable (T.map (peakXCoord coords))).length →
      (argsortStable (T.map (peakXCoord coords))).getD j 0 < (uniqueSorted L).length := by
    intro j hj
    have := argsortStable_getD_lt (T.map (peakXCoord coords)) hj
    omega
  rw [canonicalize_snd]
  constructor
  · intro hx
    rcases List.mem_map.mp hx with ⟨y, hyL, rfl⟩
    rcases mem_getD_uniqueSorted hyL with ⟨i₀, hi₀, hival⟩
    rcases argsortStable_surj (T.map (peakXCoord coords)) (i := i₀)
      (by omega) with ⟨j, hj, hjval⟩
    rw [← hival, ← hjval]
    rw [canonOldToNew_apply _ _ (uniqueSorted_nodup L) (argsortStable_nodup _) hbound hj]
    rw [List.getD_eq_getElem _ _ (by omega)]
    exact List.getElem_mem _
  · intro hx
    rcases List.mem_iff_getElem.mp hx with ⟨j, hj, hjval⟩
    have hjσ : j < (argsortStable (T.map (peakXCoord coords))).length := by omega
    have hyus : (uniqueSorted L).getD
        ((argsortStable (T.map (peakXCoord coords))).getD j 0) 0 ∈ uniqueSorted L := by
      rw [List.getD_eq_getElem _ _ (hbound j hjσ)]
      exact List.getElem_mem _
    refine List.mem_map.mpr ⟨_, mem_uniqueSorted.mp hyus, ?_⟩
    rw [canonOldToNew_apply _ _ (uniqueSorted_nodup L) (argsortStable_nodup _) hbound hjσ]
    rw [List.getD_eq_getElem _ _ hj]
    exact hjval

/-- The canonical remap does not change the set of labels: the sorted unique
labels of the output equal those of the input. -/
lemma canonicalize_uniqueSorted_eq (T : List (List ℚ)) (L : List Int)
    (coords : List (ℚ × ℚ)) (hm : T.length = (uniqueSorted L).length) :
    uniqueSorted (canonicalize T L coords).2 = uniqueSorted L := by
  apply List.eq_of_perm_of_sorted _ (uniqueSorted_sorted _) (uniqueSorted_sorted _)
  apply List.perm_of_nodup_nodup_toFinset_eq (uniqueSorted_nodup _) (uniqueSorted_nodup _)
  apply Finset.ext
  intro x
  rw [List.mem_toFinset, List.mem_toFinset, mem_uniqueSorted,
    ← canonicalize_label_mem T L coords hm x]

/-- Label correspondence: the spikes carrying the `j`-th smallest output
label are exactly the spikes that carried the label of old template row
`σ[j]`, i.e. labels are remapped through the same permutation that reordered
the template rows. -/
lemma canonicalize_label_iff (T : List (List ℚ)) (L : List Int) (coords : List (ℚ × ℚ))
    (hm : T.length = (uniqueSorted L).length) {i j : Nat}
    (hi : i < L.length) (hj : j < (uniqueSorted L).length) :
    (canonicalize T L coords).2.getD i 0 = (uniqueSorted L).getD j 0 ↔
      L.getD i 0 = (uniqueSorted L).getD
        ((argsortStable (T.map (peakXCoord coords))).getD j 0) 0 := by
  have hklen : (T.map (peakXCoord coords)).length = T.length := List.length_map _ _
  have hσlen : (argsortStable (T.map (peakXCoord coords))).length = T.length := by
    rw [argsortStable_length, hklen]
  have hbound : ∀ j', j' < (argsortStable (T.map (peakXCoord coords))).length →
      (argsortStable (T.map (peakXCoord coords))).getD j' 0 < (uniqueSorted L).length := by
    intro j' hj'
    have := argsortStable_getD_lt (T.map (peakXCoord coords)) hj'
    omega
  have hLi : L.getD i 0 ∈ L := by
    rw [List.getD_eq_getElem _ _ hi]; exact List.getElem_mem _
  rcases mem_getD_uniqueSorted hLi with ⟨i₀, hi₀, hival⟩
  rcases argsortStable_surj (T.map (peakXCoord coords)) (i := i₀)
    (by omega) with ⟨j₀, hj₀, hj₀val⟩
  have hout : (canonicalize T L coords).2.getD i 0 = (uniqueSorted L).getD j₀ 0 := by
    rw [canonicalize_snd, List.getD_eq_getElem _ _ (by simpa using hi), List.getElem_map,
      ← List.getD_eq_getElem L 0 hi, ← hival, ← hj₀val,
      canonOldToNew_apply _ _ (uniqueSorted_nodup L) (argsortStable_nodup _) hbound hj₀]
  have hjus : j < (argsortStable (T.map (peakXCoord coords))).length := by omega
  rw [hout]
  constructor
  · intro h
    have : j₀ = j := getD_inj_of_nodup (uniqueSorted_nodup L) (by omega) hj h
    rw [← this, hj₀val]
    exact hival.symm
  · intro h
    have h2 : (uniqueSorted L).getD i₀ 0 =
        (uniqueSorted L).getD ((argsortStable (T.map (peakXCoord coords))).getD j 0) 0 := by
      rw [hival, h]
    have h3 : i₀ = (argsortStable (T.map (peakXCoord coords))).getD j 0 :=
      getD_inj_of_nodup (uniqueSorted_nodup L) hi₀ (hbound j hjus) h2
    have h4 : j₀ = j :=
      argsortStable_getD_inj _ hj₀ hjus (by rw [hj₀val, h3])
    rw [h4]

/-- Identity of the remap when the permutation is the identity. -/
lemma canonOldToNew_range_id (us : List Int) (hn : us.Nodup) {x : Int} (hx : x ∈ us) :
    canonOldToNew us (List.range us.length) x = x := by
  rcases List.mem_iff_getElem.mp hx with ⟨j, hj, hjval⟩
  have hb : ∀ j', j' < (List.range us.length).length →
      (List.range us.length).getD j' 0 < us.length := by
    intro j' hj'
    rw [range_getD (by simpa using hj')]
    simpa using hj'
  have := canonOldToNew_apply us (List.range us.length) hn (List.nodup_range _) hb
    (j := j) (by simpa using hj)
  rw [range_getD hj] at this
  rw [List.getD_eq_getElem _ _ hj, hjval] at this
  exact this

/-- Applying the canonical reorder-and-remap to an already-canonical pair
changes nothing. -/
lemma canonicalize_idem (T : List (List ℚ)) (L : List Int) (coords : List (ℚ × ℚ))
    (hm : T.length = (uniqueSorted L).length) :
    canonicalize (canonicalize T L coords).1 (canonicalize T L coords).2 coords =
      canonicalize T L coords := by
  have hT'len : (canonicalize T L coords).1.length = T.length :=
    canonicalize_fst_length T L coords
  have hk'len : ((canonicalize T L coords).1.map (peakXCoord coords)).length = T.length := by
    rw [List.length_map, hT'len]
  have hsorted : List.Sorted (keyLe ((canonicalize T L coords).1.map (peakXCoord coords)))
      (List.range ((canonicalize T L coords).1.map (peakXCoord coords)).length) := by
    refine (List.pairwise_lt_range _).imp_of_mem ?_
    intro a b ha hb hab
    have hb' : b < T.length := by rw [← hk'len]; exact List.mem_range.mp hb
    have ha' : a < T.length := by rw [← hk'len]; exact List.mem_range.mp ha
    have hle := canonicalize_sorted T L coords (le_of_lt hab) hb'
    rw [← peakKeys_getD (canonicalize T L coords).1 coords (i := a) (by omega),
      ← peakKeys_getD (canonicalize T L coords).1 coords (i := b) (by omega)] at hle
    rcases lt_or_eq_of_le hle with h | h
    · exact Or.inl h
    · exact Or.inr ⟨h, le_of_lt hab⟩
  have hσ' : argsortStable ((canonicalize T L coords).1.map (peakXCoord coords)) =
      List.range ((canonicalize T L coords).1.map (peakXCoord coords)).length := by
    unfold argsortStable
    exact hsorted.insertionSort_eq
  have hfst : (canonicalize (canonicalize T L coords).1 (canonicalize T L coords).2 coords).1
      = (canonicalize T L coords).1 := by
    rw [canonicalize_fst, hσ', List.length_map]
    exact range_map_getD _ _
  have hsnd : (canonicalize (canonicalize T L coords).1 (canonicalize T L coords).2 coords).2
      = (canonicalize T L coords).2 := by
    rw [canonicalize_snd, hσ', canonicalize_uniqueSorted_eq T L coords hm,
      List.length_map, hT'len, hm]
    apply List.ext_getElem (by simp)
    intro i h1 h2
    rw [List.getElem_map]
    exact canonOldToNew_range_id _ (uniqueSorted_nodup L)
      ((canonicalize_label_mem T L coords hm _).mp (List.getElem_mem h2))
  exact Prod.ext_iff.mpr ⟨hfst, hsnd⟩

lemma medianTemplates_length (frames : List (List ℚ)) (L : List Int) (nc : Nat) :
    (medianTemplates frames L nc).length = (uniqueSorted L).length :=
  List.length_map _ _

/-- C3: canonicalization in `compute_spike_sorting`.  For a non-empty set of
matched spikes with per-label median templates: (a) the reordered template
rows have non-decreasing peak-channel x-coordinates; (b) the output label set
equals the input label set, the rows are permuted by the argsort permutation
`σ`, and a spike carries the `j`-th smallest output label exactly when it
previously carried the label of old template row `σ[j]` (so output row `j`
corresponds to the `j`-th smallest output label); (c) applying the canonical
reorder-and-remap a second time changes nothing. -/
theorem C3_canonical_order_and_idempotence (frames : List (List ℚ)) (L : List Int)
    (nc : Nat) (coords : List (ℚ × ℚ)) (hL : L ≠ []) :
    (∀ j j', j ≤ j' → j' < (medianTemplates frames L nc).length →
      peakXCoord coords
          ((canonicalize (medianTemplates frames L nc) L coords).1.getD j []) ≤
        peakXCoord coords
          ((canonicalize (medianTemplates frames L nc) L coords).1.getD j' [])) ∧
    uniqueSorted (canonicalize (medianTemplates frames L nc) L coords).2 =
      uniqueSorted L ∧
    (argsortStable ((medianTemplates frames L nc).map (peakXCoord coords))).Perm
      (List.range (medianTemplates frames L nc).length) ∧
    (∀ j, j < (medianTemplates frames L nc).length →
      (canonicalize (medianTemplates frames L nc) L coords).1.getD j [] =
        (medianTemplates frames L nc).getD
          ((argsortStable ((medianTemplates frames L nc).map (peakXCoord coords))).getD j 0)
          []) ∧
    (∀ i j, i < L.length → j < (uniqueSorted L).length →
      ((canonicalize (medianTemplates frames L nc) L coords).2.getD i 0 =
          (uniqueSorted L).getD j 0 ↔
        L.getD i 0 = (uniqueSorted L).getD
          ((argsortStable ((medianTemplates frames L nc).map (peakXCoord coords))).getD j 0)
          0)) ∧
    canonicalize (canonicalize (medianTemplates frames L nc) L coords).1
        (canonicalize (medianTemplates frames L nc) L coords).2 coords =
      canonicalize (medianTemplates frames L nc) L coords := by
  have hm := medianTemplates_length frames L nc
  refine ⟨?_, canonicalize_uniqueSorted_eq _ _ _ hm, ?_, ?_, ?_,
    canonicalize_idem _ _ _ hm⟩
  · intro j j' hle hj'
    exact canonicalize_sorted _ _ _ hle hj'
  · have := argsortStable_perm ((medianTemplates frames L nc).map (peakXCoord coords))
    rwa [List.length_map] at this
  · intro j hj
    rw [canonicalize_fst]
    exact mapGetD_getD _ _ _ (by rw [argsortStable_length, List.length_map]; exact hj)
  · intro i j hi hj
    exact canonicalize_label_iff _ _ _ hm hi hj

/-- Witness for C3 at a concrete input: two spikes with labels `[2, 1]` and
one-channel frames; both hypotheses of `C3_canonical_order_and_idempotence`
are discharged by computation. -/
theorem C3_canonical_order_and_idempotence_witness :
    ([2, 1] : List Int) ≠ [] ∧
    canonicalize
        (canonicalize (medianTemplates [[-5], [-9]] [2, 1] 1) [2, 1] [(0, 0)]).1
        (canonicalize (medianTemplates [[-5], [-9]] [2, 1] 1) [2, 1] [(0, 0)]).2
        [(0, 0)] =
      canonicalize (medianTemplates [[-5], [-9]] [2, 1] 1) [2, 1] [(0, 0)] := by
  refine ⟨by decide, ?_⟩
  exact (C3_canonical_order_and_idempotence [[-5], [-9]] [2, 1] 1 [(0, 0)]
    (by decide)).2.2.2.2.2

/-! ## `compute_epoch_spike_sorting` (`epoch_spike_sorting.py` lines 6-117) -/

/-- One per-segment sorting, as consumed by the epoch aggregator. -/
structure SegmentSorting where
  spike_times : List ℚ
  spike_labels : List Int
  spike_amplitudes : List ℚ
  templates : List (List ℚ)
  segment_num : Int
deriving DecidableEq

/-- Ordering of segments by their 1-based segment number (the `sorted(...)`
key of `epoch_spike_sorting.py` line 50). -/
def segNumLe (a b : SegmentSorting) : Prop := a.segment_num ≤ b.segment_num

instance segNumLe.decRel : DecidableRel segNumLe := fun _ _ => by
  unfold segNumLe; infer_instance

instance segNumLe.isTotal : IsTotal SegmentSorting segNumLe where
  total a b := Int.le_total a.segment_num b.segment_num

instance segNumLe.isTrans : IsTrans SegmentSorting segNumLe where
  trans _ _ _ hab hbc := le_trans hab hbc

/-- Combined spike times: per-segment times offset by
`(segment_num - 1) * segment_duration_sec`, concatenated in the given
segment order (`epoch_spike_sorting.py` lines 57-69). -/
def epochTimes (ss : List SegmentSorting) (dur : ℚ) : List ℚ :=
  (ss.map (fun s => s.spike_times.map
    (fun t => t + ((s.segment_num : ℚ) - 1) * dur))).flatten

/-- Combined spike labels, concatenated in the given segment order. -/
def epochLabels (ss : List SegmentSorting) : List Int :=
  (ss.map (fun s : SegmentSorting => s.spike_labels)).flatten

/-- Combined spike amplitudes, concatenated in the given segment order. -/
def epochAmps (ss : List SegmentSorting) : List ℚ :=
  (ss.map (fun s : SegmentSorting => s.spike_amplitudes)).flatten

/-- One pass of the weighted-template accumulation loop of
`epoch_spike_sorting.py` lines 93-109: a segment containing the label (with
its per-segment template row found through the sorted unique labels)
contributes its template scaled by its spike count. -/
def epochTemplateStep (label : Int) (acc : List ℚ × Nat) (seg : SegmentSorting) :
    List ℚ × Nat :=
  let cnt := seg.spike_labels.count label
  if 0 < cnt then
    let segUs := uniqueSorted seg.spike_labels
    if label ∈ segUs then
      let idx := segUs.findIdx (fun v => v = label)
      if idx < seg.templates.length then
        (List.zipWith (· + ·) acc.1
          ((seg.templates.getD idx []).map (fun x => x * (cnt : ℚ))), acc.2 + cnt)
      else acc
    else acc
  else acc

/-- The combined template of one label (`epoch_spike_sorting.py` lines
88-113): spike-count-weighted mean of the segment templates, all-zero if the
total weight is zero. -/
def epochTemplateFor (ss : List SegmentSorting) (nc : Nat) (label : Int) : List ℚ :=
  let acc := ss.foldl (epochTemplateStep label) (List.replicate nc 0, 0)
  if 0 < acc.2 then acc.1.map (fun x => x / (acc.2 : ℚ)) else acc.1

/-- `compute_epoch_spike_sorting(segment_sortings, segment_duration_sec,
num_channels)` (`epoch_spike_sorting.py` lines 6-117): sort segments by
segment number, concatenate offset times / labels / amplitudes, and build one
weighted-mean template per unique label. -/
def compute_epoch_spike_sorting (segment_sortings : List SegmentSorting)
    (segment_duration_sec : ℚ) (num_channels : Nat) :
    List (List ℚ) × List ℚ × List Int × List ℚ :=
  if segment_sortings = [] then ([], [], [], [])
  else if (uniqueSorted (epochLabels (List.insertionSort segNumLe segment_sortings))).length
      = 0 then
    ([], epochTimes (List.insertionSort segNumLe segment_sortings) segment_duration_sec,
      epochLabels (List.insertionSort segNumLe segment_sortings),
      epochAmps (List.insertionSort segNumLe segment_sortings))
  else
    ((uniqueSorted (epochLabels (List.insertionSort segNumLe segment_sortings))).map
        (epochTemplateFor (List.insertionSort segNumLe segment_sortings) num_channels),
      epochTimes (List.insertionSort segNumLe segment_sortings) segment_duration_sec,
      epochLabels (List.insertionSort segNumLe segment_sortings),
      epochAmps (List.insertionSort segNumLe segment_sortings))

/-- Indexing into a concatenation: the entry at offset `i` inside the `j`-th
block sits at the sum of the previous block lengths plus `i`. -/
lemma flatten_getD {α : Type} (d : α) (l : List (List α)) :
    ∀ (j i : Nat) (hj : j < l.length), i < (l.get ⟨j, hj⟩).length →
      l.flatten.getD (((l.take j).map List.length).sum + i) d = (l.get ⟨j, hj⟩).getD i d := by
  induction l with
  | nil =>
    intro j i hj
    exact absurd hj (Nat.not_lt_zero j)
  | cons hd tl ih =>
    intro j i hj hi
    cases j with
    | zero =>
      simp only [List.take_zero, List.map_nil, List.sum_nil, Nat.zero_add]
      rw [List.flatten_cons]
      have hi' : i < hd.length := hi
      rw [List.getD_eq_getElem?_getD, List.getElem?_append_left hi',
        ← List.getD_eq_getElem?_getD]
      rfl
    | succ j' =>
      have hj' : j' < tl.length := by simpa using hj
      rw [List.take_succ_cons, List.map_cons, List.sum_cons, List.flatten_cons]
      have hge : hd.length ≤ hd.length + (((tl.take j').map List.length).sum + i) :=
        Nat.le_add_right _ _
      rw [Nat.add_assoc, List.getD_eq_getElem?_getD, List.getElem?_append_right hge]
      have hsub : hd.length + (((tl.take j').map List.length).sum + i) - hd.length =
          ((tl.take j').map List.length).sum + i := by omega
      rw [hsub, ← List.getD_eq_getElem?_getD]
      exact ih j' i hj' hi

/-- The last three components of `compute_epoch_spike_sorting` are the joined
offset times, labels and amplitudes of the segment-number-sorted segments. -/
lemma compute_epoch_snd (segs : List SegmentSorting) (dur : ℚ) (nc : Nat)
    (hne : segs ≠ []) :
    (compute_epoch_spike_sorting segs dur nc).2 =
      (epochTimes (List.insertionSort segNumLe segs) dur,
       epochLabels (List.insertionSort segNumLe segs),
       epochAmps (List.insertionSort segNumLe segs)) := by
  unfold compute_epoch_spike_sorting
  rw [if_neg hne]
  by_cases h : (uniqueSorted (epochLabels (List.insertionSort segNumLe segs))).length = 0
  · rw [if_pos h]
  · rw [if_neg h]

/-- Sum of the per-segment spike counts of the first `j` sorted segments:
the index at which segment `j`'s spikes start in the combined arrays. -/
def timesPrefixLen (ss : List SegmentSorting) (j : Nat) : Nat :=
  ((ss.take j).map (fun s => s.spike_times.length)).sum

lemma epochTimes_length (ss : List SegmentSorting) (dur : ℚ) :
    (epochTimes ss dur).length = (ss.map (fun s => s.spike_times.length)).sum := by
  unfold epochTimes
  rw [List.length_flatten, List.map_map]
  congr 1
  apply List.map_congr_left
  intro s _
  simp [Function.comp]

lemma epochLabels_length (ss : List SegmentSorting) :
    (epochLabels ss).length = (ss.map (fun s => s.spike_labels.length)).sum := by
  unfold epochLabels
  rw [List.length_flatten, List.map_map]
  rfl

lemma epochAmps_length (ss : List SegmentSorting) :
    (epochAmps ss).length = (ss.map (fun s => s.spike_amplitudes.length)).sum := by
  unfold epochAmps
  rw [List.length_flatten, List.map_map]
  rfl

lemma epoch_getD_times (ss : List SegmentSorting) (dur : ℚ) {j i : Nat}
    (hj : j < ss.length) (hi : i < (ss.get ⟨j, hj⟩).spike_times.length) :
    (epochTimes ss dur).getD (timesPrefixLen ss j + i) 0 =
      (ss.get ⟨j, hj⟩).spike_times.getD i 0 +
        (((ss.get ⟨j, hj⟩).segment_num : ℚ) - 1) * dur := by
  set f := fun s : SegmentSorting =>
    s.spike_times.map (fun t => t + ((s.segment_num : ℚ) - 1) * dur) with hf
  have hj' : j < (ss.map f).length := by rw [List.length_map]; exact hj
  have hget : (ss.map f).get ⟨j, hj'⟩ = f (ss.get ⟨j, hj⟩) := List.getElem_map _
  have hi' : i < ((ss.map f).get ⟨j, hj'⟩).length := by
    rw [hget, hf, List.length_map]; exact hi
  have hmain := flatten_getD 0 (ss.map f) j i hj' hi'
  have hpre : (((ss.map f).take j).map List.length).sum = timesPrefixLen ss j := by
    unfold timesPrefixLen
    rw [← List.map_take, List.map_map]
    congr 1
    apply List.map_congr_left
    intro s _
    simp [hf, Function.comp]
  rw [hpre] at hmain
  show (epochTimes ss dur).getD (timesPrefixLen ss j + i) 0 = _
  unfold epochTimes
  rw [← hf, hmain, hget, hf]
  rw [List.getD_eq_getElem _ _ (by rw [List.length_map]; exact hi), List.getElem_map,
    List.getD_eq_getElem _ _ hi]

lemma epoch_getD_labels (ss : List SegmentSorting)
    (hlen : ∀ s ∈ ss, s.spike_labels.length = s.spike_times.length) {j i : Nat}
    (hj : j < ss.length) (hi : i < (ss.get ⟨j, hj⟩).spike_times.length) :
    (epochLabels ss).getD (timesPrefixLen ss j + i) 0 =
      (ss.get ⟨j, hj⟩).spike_labels.getD i 0 := by
  have hj' : j < (ss.map (fun s : SegmentSorting => s.spike_labels)).length := by
    rw [List.length_map]; exact hj
  have hget : (ss.map (fun s : SegmentSorting => s.spike_labels)).get ⟨j, hj'⟩ =
      (ss.get ⟨j, hj⟩).spike_labels := List.getElem_map _
  have hi' : i < ((ss.map (fun s : SegmentSorting => s.spike_labels)).get ⟨j, hj'⟩).length := by
    rw [hget, hlen _ (List.get_mem ss j hj)]; exact hi
  have hmain := flatten_getD 0 (ss.map (fun s : SegmentSorting => s.spike_labels)) j i hj' hi'
  have hpre : (((ss.map (fun s : SegmentSorting => s.spike_labels)).take j).map List.length).sum =
      timesPrefixLen ss j := by
    unfold timesPrefixLen
    rw [← List.map_take, List.map_map]
    congr 1
    apply List.map_congr_left
    intro s hs
    exact hlen s (List.mem_of_mem_take hs)
  rw [hpre] at hmain
  show (epochLabels ss).getD (timesPrefixLen ss j + i) 0 = _
  unfold epochLabels
  rw [hmain, hget]

lemma epoch_getD_amps (ss : List SegmentSorting)
    (hlen : ∀ s ∈ ss, s.spike_amplitudes.length = s.spike_times.length) {j i : Nat}
    (hj : j < ss.length) (hi : i < (ss.get ⟨j, hj⟩).spike_times.length) :
    (epochAmps ss).getD (timesPrefixLen ss j + i) 0 =
      (ss.get ⟨j, hj⟩).spike_amplitudes.getD i 0 := by
  have hj' : j < (ss.map (fun s : SegmentSorting => s.spike_amplitudes)).length := by
    rw [List.length_map]; exact hj
  have hget : (ss.map (fun s : SegmentSorting => s.spike_amplitudes)).get ⟨j, hj'⟩ =
      (ss.get ⟨j, hj⟩).spike_amplitudes := List.getElem_map _
  have hi' : i < ((ss.map (fun s : SegmentSorting => s.spike_amplitudes)).get ⟨j, hj'⟩).length := by
    rw [hget, hlen _ (List.get_mem ss j hj)]; exact hi
  have hmain := flatten_getD 0 (ss.map (fun s : SegmentSorting => s.spike_amplitudes)) j i hj' hi'
  have hpre : (((ss.map (fun s : SegmentSorting => s.spike_amplitudes)).take j).map List.length).sum =
      timesPrefixLen ss j := by
    unfold timesPrefixLen
    rw [← List.map_take, List.map_map]
    congr 1
    apply List.map_congr_left
    intro s hs
    exact hlen s (List.mem_of_mem_take hs)
  rw [hpre] at hmain
  show (epochAmps ss).getD (timesPrefixLen ss j + i) 0 = _
  unfold epochAmps
  rw [hmain, hget]

/-- C4: for a non-empty list of per-segment sortings, the epoch aggregator
concatenates the segments' arrays in ascending segment-number order (the sort
permutes the input segments and leaves their segment numbers non-decreasing);
the spike at offset `i` of the `j`-th sorted segment appears at combined
index `timesPrefixLen ss j + i`, with its time offset by
`(segment_num - 1) * segment_duration_sec` and its label and amplitude taken
unchanged from the same per-segment position, so the `i`-th entries of the
three combined arrays belong to the same spike and no global time sort is
applied; the combined length is the sum of the per-segment counts. -/
theorem C4_epoch_concatenation_order (segs : List SegmentSorting) (dur : ℚ) (nc : Nat)
    (hne : segs ≠ [])
    (hlen : ∀ s ∈ segs, s.spike_labels.length = s.spike_times.length ∧
      s.spike_amplitudes.length = s.spike_times.length) :
    (List.insertionSort segNumLe segs).Perm segs ∧
    List.Sorted (· ≤ ·)
      ((List.insertionSort segNumLe segs).map (fun s => s.segment_num)) ∧
    (compute_epoch_spike_sorting segs dur nc).2.1.length =
      (segs.map (fun s => s.spike_times.length)).sum ∧
    (compute_epoch_spike_sorting segs dur nc).2.2.1.length =
      (compute_epoch_spike_sorting segs dur nc).2.1.length ∧
    (compute_epoch_spike_sorting segs dur nc).2.2.2.length =
      (compute_epoch_spike_sorting segs dur nc).2.1.length ∧
    (∀ j i (hj : j < (List.insertionSort segNumLe segs).length),
      i < ((List.insertionSort segNumLe segs).get ⟨j, hj⟩).spike_times.length →
      ((compute_epoch_spike_sorting segs dur nc).2.1.getD
          (timesPrefixLen (List.insertionSort segNumLe segs) j + i) 0 =
        ((List.insertionSort segNumLe segs).get ⟨j, hj⟩).spike_times.getD i 0 +
          ((((List.insertionSort segNumLe segs).get ⟨j, hj⟩).segment_num : ℚ) - 1) * dur ∧
       (compute_epoch_spike_sorting segs dur nc).2.2.1.getD
          (timesPrefixLen (List.insertionSort segNumLe segs) j + i) 0 =
        ((List.insertionSort segNumLe segs).get ⟨j, hj⟩).spike_labels.getD i 0 ∧
       (compute_epoch_spike_sorting segs dur nc).2.2.2.getD
          (timesPrefixLen (List.insertionSort segNumLe segs) j + i) 0 =
        ((List.insertionSort segNumLe segs).get ⟨j, hj⟩).spike_amplitudes.getD i 0)) := by
  have hperm : (List.insertionSort segNumLe segs).Perm segs :=
    List.perm_insertionSort _ _
  have hlen1 : ∀ s ∈ List.insertionSort segNumLe segs,
      s.spike_labels.length = s.spike_times.length :=
    fun s hs => (hlen s (hperm.mem_iff.mp hs)).1
  have hlen2 : ∀ s ∈ List.insertionSort segNumLe segs,
      s.spike_amplitudes.length = s.spike_times.length :=
    fun s hs => (hlen s (hperm.mem_iff.mp hs)).2
  have hout := compute_epoch_snd segs dur nc hne
  have hT : (compute_epoch_spike_sorting segs dur nc).2.1 =
      epochTimes (List.insertionSort segNumLe segs) dur := by rw [hout]
  have hLb : (compute_epoch_spike_sorting segs dur nc).2.2.1 =
      epochLabels (List.insertionSort segNumLe segs) := by rw [hout]
  have hA : (compute_epoch_spike_sorting segs dur nc).2.2.2 =
      epochAmps (List.insertionSort segNumLe segs) := by rw [hout]
  refine ⟨hperm, ?_, ?_, ?_, ?_, ?_⟩
  · exact List.pairwise_map.mpr (List.sorted_insertionSort segNumLe segs)
  · rw [hT, epochTimes_length]
    exact (hperm.map (fun s => s.spike_times.length)).sum_eq
  · rw [hT, hLb, epochTimes_length, epochLabels_length]
    congr 1
    exact List.map_congr_left hlen1
  · rw [hT, hA, epochTimes_length, epochAmps_length]
    congr 1
    exact List.map_congr_left hlen2
  · intro j i hj hi
    exact ⟨by rw [hT]; exact epoch_getD_times _ dur hj hi,
      by rw [hLb]; exact epoch_getD_labels _ hlen1 hj hi,
      by rw [hA]; exact epoch_getD_amps _ hlen2 hj hi⟩

/-- Witness for C4 at a concrete input: two segments given in descending
segment-number order (2 then 1, each with one spike); the hypotheses of
`C4_epoch_concatenation_order` are discharged by computation, the sort places
segment 1 first, and the combined count is 2. -/
theorem C4_epoch_concatenation_order_witness :
    (([⟨[1], [4], [9], [[2]], 2⟩, ⟨[0], [3], [7], [[5]], 1⟩] : List SegmentSorting) ≠ [] ∧
      ∀ s ∈ ([⟨[1], [4], [9], [[2]], 2⟩, ⟨[0], [3], [7], [[5]], 1⟩] : List SegmentSorting),
        s.spike_labels.length = s.spike_times.length ∧
        s.spike_amplitudes.length = s.spike_times.length) ∧
    List.Sorted (· ≤ ·)
      ((List.insertionSort segNumLe
        [⟨[1], [4], [9], [[2]], 2⟩, ⟨[0], [3], [7], [[5]], 1⟩]).map
          (fun s => s.segment_num)) ∧
    (compute_epoch_spike_sorting
        [⟨[1], [4], [9], [[2]], 2⟩, ⟨[0], [3], [7], [[5]], 1⟩] 2 1).2.1.length = 2 := by
  refine ⟨⟨by decide, by decide⟩, ?_, ?_⟩
  · exact (C4_epoch_concatenation_order _ 2 1 (by decide) (by decide)).2.1
  · rw [(C4_epoch_concatenation_order _ 2 1 (by decide) (by decide)).2.2.1]
    decide

/-- Invariant of the weighted-template accumulation loop: under the data
model (per-segment template count equals per-segment unique-label count, and
template rows have `nc` channels), the guards collapse and the loop computes
the plain weighted sum and total count. -/
lemma epochFold_spec (label : Int) (nc : Nat) :
    ∀ (ss : List SegmentSorting) (acc : List ℚ × Nat),
      acc.1.length = nc →
      (∀ s ∈ ss, s.templates.length = (uniqueSorted s.spike_labels).length) →
      (∀ s ∈ ss, ∀ t ∈ s.templates, t.length = nc) →
      (ss.foldl (epochTemplateStep label) acc).1.length = nc ∧
      (ss.foldl (epochTemplateStep label) acc).2 =
        acc.2 + (ss.map (fun s => s.spike_labels.count label)).sum ∧
      (∀ c, c < nc → (ss.foldl (epochTemplateStep label) acc).1.getD c 0 =
        acc.1.getD c 0 + (ss.map (fun s =>
          ((s.templates.getD ((uniqueSorted s.spike_labels).findIdx
            (fun v => v = label)) []).getD c 0) *
              ((s.spike_labels.count label : ℚ)))).sum) := by
  intro ss
  induction ss with
  | nil =>
    intro acc hacc _ _
    exact ⟨hacc, by simp, by intro c _; simp⟩
  | cons s tl ih =>
    intro acc hacc hm hrow
    have hmtl : ∀ x ∈ tl, x.templates.length = (uniqueSorted x.spike_labels).length :=
      fun x hx => hm x (List.mem_cons_of_mem _ hx)
    have hrtl : ∀ x ∈ tl, ∀ t ∈ x.templates, t.length = nc :=
      fun x hx => hrow x (List.mem_cons_of_mem _ hx)
    simp only [List.foldl_cons, List.map_cons, List.sum_cons]
    by_cases hcnt : 0 < s.spike_labels.count label
    · have hmem : label ∈ uniqueSorted s.spike_labels :=
        mem_uniqueSorted.mpr (List.count_pos_iff.mp hcnt)
      have hidx : (uniqueSorted s.spike_labels).findIdx (fun v => v = label) <
          (uniqueSorted s.spike_labels).length :=
        List.findIdx_lt_length_of_exists ⟨label, hmem, by simp⟩
      have hidx' : (uniqueSorted s.spike_labels).findIdx (fun v => v = label) <
          s.templates.length := by
        rw [hm s (List.mem_cons_self s tl)]; exact hidx
      have hstep : epochTemplateStep label acc s =
          (List.zipWith (· + ·) acc.1
            ((s.templates.getD ((uniqueSorted s.spike_labels).findIdx
              (fun v => v = label)) []).map
                (fun x => x * ((s.spike_labels.count label : ℚ)))),
           acc.2 + s.spike_labels.count label) := by
        unfold epochTemplateStep
        rw [if_pos hcnt, if_pos hmem, if_pos hidx']
      have htmem : s.templates.getD ((uniqueSorted s.spike_labels).findIdx
          (fun v => v = label)) [] ∈ s.templates := by
        rw [List.getD_eq_getElem _ _ hidx']
        exact List.getElem_mem _
      have htlen : (s.templates.getD ((uniqueSorted s.spike_labels).findIdx
          (fun v => v = label)) []).length = nc :=
        hrow s (List.mem_cons_self s tl) _ htmem
      have hacc' : (epochTemplateStep label acc s).1.length = nc := by
        rw [hstep, List.length_zipWith, List.length_map, htlen, hacc]
        exact min_self nc
      rcases ih (epochTemplateStep label acc s) hacc' hmtl hrtl with ⟨h1, h2, h3⟩
      refine ⟨h1, ?_, ?_⟩
      · rw [h2, hstep]
        omega
      · intro c hc
        rw [h3 c hc, hstep]
        have hc1 : c < acc.1.length := by rw [hacc]; exact hc
        have hc2 : c < ((s.templates.getD ((uniqueSorted s.spike_labels).findIdx
            (fun v => v = label)) []).map
              (fun x => x * ((s.spike_labels.count label : ℚ)))).length := by
          rw [List.length_map, htlen]; exact hc
        have hzlen : c < (List.zipWith (· + ·) acc.1
            ((s.templates.getD ((uniqueSorted s.spike_labels).findIdx
              (fun v => v = label)) []).map
                (fun x => x * ((s.spike_labels.count label : ℚ))))).length := by
          rw [List.length_zipWith]
          omega
        rw [List.getD_eq_getElem _ _ hzlen, List.getElem_zipWith, List.getElem_map,
          ← List.getD_eq_getElem acc.1 0 hc1,
          ← List.getD_eq_getElem _ 0 (by rw [htlen]; exact hc)]
        ring
    · have hcnt0 : s.spike_labels.count label = 0 := by omega
      have hstep : epochTemplateStep label acc s = acc := by
        unfold epochTemplateStep
        rw [if_neg hcnt]
      rcases ih (epochTemplateStep label acc s) (by rw [hstep]; exact hacc)
        hmtl hrtl with ⟨h1, h2, h3⟩
      refine ⟨h1, ?_, ?_⟩
      · rw [h2, hstep, hcnt0]
        omega
      · intro c hc
        rw [h3 c hc, hstep, hcnt0]
        push_cast
        ring

/-- C5: the epoch aggregator outputs one template row per label in the union
of the segments' label sets; row `j` (for the `j`-th smallest combined label)
is the spike-count-weighted mean of the segment templates of that label
(segments without the label contribute a zero term), and a label of total
weight zero keeps an all-zero template. -/
theorem C5_epoch_weighted_mean_templates (segs : List SegmentSorting) (dur : ℚ)
    (nc : Nat) (hne : segs ≠ [])
    (hm : ∀ s ∈ segs, s.templates.length = (uniqueSorted s.spike_labels).length)
    (hrow : ∀ s ∈ segs, ∀ t ∈ s.templates, t.length = nc) :
    (compute_epoch_spike_sorting segs dur nc).1.length =
      (uniqueSorted (epochLabels (List.insertionSort segNumLe segs))).length ∧
    (∀ j, j < (uniqueSorted (epochLabels (List.insertionSort segNumLe segs))).length →
      ((compute_epoch_spike_sorting segs dur nc).1.getD j []).length = nc ∧
      (∀ c, c < nc →
        0 < ((List.insertionSort segNumLe segs).map (fun s => s.spike_labels.count
          ((uniqueSorted (epochLabels (List.insertionSort segNumLe segs))).getD j 0))).sum →
        ((compute_epoch_spike_sorting segs dur nc).1.getD j []).getD c 0 =
          ((List.insertionSort segNumLe segs).map (fun s =>
            ((s.templates.getD ((uniqueSorted s.spike_labels).findIdx
              (fun v => v = (uniqueSorted (epochLabels
                (List.insertionSort segNumLe segs))).getD j 0)) []).getD c 0) *
            ((s.spike_labels.count ((uniqueSorted (epochLabels
              (List.insertionSort segNumLe segs))).getD j 0) : ℚ)))).sum /
          ((((List.insertionSort segNumLe segs).map (fun s => s.spike_labels.count
            ((uniqueSorted (epochLabels
              (List.insertionSort segNumLe segs))).getD j 0))).sum : ℚ))) ∧
      (((List.insertionSort segNumLe segs).map (fun s => s.spike_labels.count
          ((uniqueSorted (epochLabels (List.insertionSort segNumLe segs))).getD j 0))).sum
            = 0 →
        (compute_epoch_spike_sorting segs dur nc).1.getD j [] =
          List.replicate nc 0)) := by
  have hperm : (List.insertionSort segNumLe segs).Perm segs :=
    List.perm_insertionSort _ _
  have hm' : ∀ s ∈ List.insertionSort segNumLe segs,
      s.templates.length = (uniqueSorted s.spike_labels).length :=
    fun s hs => hm s (hperm.mem_iff.mp hs)
  have hrow' : ∀ s ∈ List.insertionSort segNumLe segs, ∀ t ∈ s.templates, t.length = nc :=
    fun s hs => hrow s (hperm.mem_iff.mp hs)
  by_cases h0 : (uniqueSorted (epochLabels (List.insertionSort segNumLe segs))).length = 0
  · have hfst : (compute_epoch_spike_sorting segs dur nc).1 = [] := by
      unfold compute_epoch_spike_sorting
      rw [if_neg hne, if_pos h0]
    refine ⟨by rw [hfst, h0]; rfl, ?_⟩
    intro j hj
    omega
  · have hfst : (compute_epoch_spike_sorting segs dur nc).1 =
        (uniqueSorted (epochLabels (List.insertionSort segNumLe segs))).map
          (epochTemplateFor (List.insertionSort segNumLe segs) nc) := by
      unfold compute_epoch_spike_sorting
      rw [if_neg hne, if_neg h0]
    refine ⟨by rw [hfst, List.length_map], ?_⟩
    intro j hj
    set lab := (uniqueSorted (epochLabels (List.insertionSort segNumLe segs))).getD j 0
      with hlab
    have hrowj : (compute_epoch_spike_sorting segs dur nc).1.getD j [] =
        epochTemplateFor (List.insertionSort segNumLe segs) nc lab := by
      rw [hfst, List.getD_eq_getElem _ _ (by rw [List.length_map]; exact hj),
        List.getElem_map, hlab, List.getD_eq_getElem _ _ hj]
    rcases epochFold_spec lab nc (List.insertionSort segNumLe segs)
        (List.replicate nc 0, 0) (List.length_replicate nc 0) hm' hrow'
      with ⟨h1, h2, h3⟩
    rw [hrowj]
    unfold epochTemplateFor
    constructor
    · by_cases hW : 0 < (List.foldl (epochTemplateStep lab) (List.replicate nc 0, 0)
          (List.insertionSort segNumLe segs)).2
      · rw [if_pos hW, List.length_map]
        exact h1
      · rw [if_neg hW]
        exact h1
    constructor
    · intro c hc hWpos
      have hW : 0 < (List.foldl (epochTemplateStep lab) (List.replicate nc 0, 0)
          (List.insertionSort segNumLe segs)).2 := by
        rw [h2]; simpa using hWpos
      rw [if_pos hW]
      have hc' : c < ((List.insertionSort segNumLe segs).foldl
          (epochTemplateStep lab) (List.replicate nc 0, 0)).1.length := by
        rw [h1]; exact hc
      rw [List.getD_eq_getElem _ _ (by rw [List.length_map]; exact hc'),
        List.getElem_map, ← List.getD_eq_getElem _ 0 hc', h3 c hc, h2]
      have hrep : (List.replicate nc (0 : ℚ)).getD c 0 = 0 := by
        rw [List.getD_eq_getElem _ _ (by simpa using hc)]
        exact List.getElem_replicate _ _
      dsimp only
      rw [hrep, Nat.zero_add, zero_add, Nat.cast_list_sum, List.map_map]
      rfl
    · intro hW0
      have hW : ¬ 0 < (List.foldl (epochTemplateStep lab) (List.replicate nc 0, 0)
          (List.insertionSort segNumLe segs)).2 := by
        rw [h2, hW0]
        dsimp only
        omega
      rw [if_neg hW]
      apply List.ext_getElem (by rw [h1, List.length_replicate])
      intro c hc1 hc2
      have hc : c < nc := by rwa [List.length_replicate] at hc2
      have hterm : ∀ s ∈ List.insertionSort segNumLe segs,
          s.spike_labels.count lab = 0 := by
        intro s hs
        have := List.sum_eq_zero_iff.mp hW0
        exact this _ (List.mem_map.mpr ⟨s, hs, rfl⟩)
      have hsum0 : ((List.insertionSort segNumLe segs).map (fun s =>
          ((s.templates.getD ((uniqueSorted s.spike_labels).findIdx
            (fun v => v = lab)) []).getD c 0) *
          ((s.spike_labels.count lab : ℚ)))).sum = 0 := by
        apply List.sum_eq_zero
        intro x hx
        rcases List.mem_map.mp hx with ⟨s, hs, rfl⟩
        rw [hterm s hs]
        push_cast
        ring
      rw [← List.getD_eq_getElem _ 0 hc1, h3 c hc, hsum0, List.getElem_replicate]
      have hrep : (List.replicate nc (0 : ℚ)).getD c 0 = 0 := by
        rw [List.getD_eq_getElem _ _ (by simpa using hc)]
        exact List.getElem_replicate _ _
      dsimp only
      rw [hrep, add_zero]

/-- Witness for C5 at a concrete input: label 7 occurs with counts (1, 3) in
two segments with one-channel templates `[2]` and `[6]`; the hypotheses of
`C5_epoch_weighted_mean_templates` are discharged by computation and the
combined template evaluates to the weighted mean `(1*2 + 3*6)/4 = 5`. -/
theorem C5_epoch_weighted_mean_templates_witness :
    (([⟨[0], [7], [1], [[2]], 1⟩, ⟨[0, 1, 2], [7, 7, 7], [1, 1, 1], [[6]], 2⟩] :
        List SegmentSorting) ≠ [] ∧
      (∀ s ∈ ([⟨[0], [7], [1], [[2]], 1⟩,
          ⟨[0, 1, 2], [7, 7, 7], [1, 1, 1], [[6]], 2⟩] : List SegmentSorting),
        s.templates.length = (uniqueSorted s.spike_labels).length) ∧
      (∀ s ∈ ([⟨[0], [7], [1], [[2]], 1⟩,
          ⟨[0, 1, 2], [7, 7, 7], [1, 1, 1], [[6]], 2⟩] : List SegmentSorting),
        ∀ t ∈ s.templates, t.length = 1)) ∧
    (compute_epoch_spike_sorting
        [⟨[0], [7], [1], [[2]], 1⟩, ⟨[0, 1, 2], [7, 7, 7], [1, 1, 1], [[6]], 2⟩]
        2 1).1.length =
      (uniqueSorted (epochLabels (List.insertionSort segNumLe
        [⟨[0], [7], [1], [[2]], 1⟩,
         ⟨[0, 1, 2], [7, 7, 7], [1, 1, 1], [[6]], 2⟩]))).length ∧
    (compute_epoch_spike_sorting
        [⟨[0], [7], [1], [[2]], 1⟩, ⟨[0, 1, 2], [7, 7, 7], [1, 1, 1], [[6]], 2⟩]
        2 1).1 = [[5]] := by
  refine ⟨⟨by decide, by decide, by decide⟩, ?_, ?_⟩
  · exact (C5_epoch_weighted_mean_templates _ 2 1 (by decide) (by decide) (by decide)).1
  · norm_num +decide [compute_epoch_spike_sorting, epochLabels, epochTemplateFor, epochTemplateStep,
      uniqueSorted, segNumLe, List.dedup, List.insertionSort, List.orderedInsert, List.count,
      List.countP, List.countP.go, List.findIdx, List.findIdx.go]

/-! ## `compute_unit_autocorrelogram` (`generate_preview.py` lines 454-497) -/

/-- `num_bins` of `generate_preview.py` lines 468-470: integer quotient of
window by bin size, decremented to the nearest odd count. -/
def acgBins (bin_size_ms window_ms : ℚ) : Nat :=
  let nb := (pyInt (window_ms / bin_size_ms)).toNat
  if nb % 2 = 0 then nb - 1 else nb

/-- `bin_edges_msec[i] = (i - num_bins / 2) * bin_size_ms` (line 473). -/
def acgEdge (bin_size_ms : ℚ) (num_bins i : Nat) : ℚ :=
  ((i : ℚ) - (num_bins : ℚ) / 2) * bin_size_ms

/-- The raw time differences at a given neighbor offset,
`(times1[offset:] - times1[:-offset]) * 1000` (lines 481-484). -/
def acgDeltas (times : List ℚ) (offset : Nat) : List ℚ :=
  (List.range (times.length - offset)).map
    (fun i => (times.getD (i + offset) 0 - times.getD i 0) * 1000)

/-- The amount the inner binning loop (lines 488-495) adds to `bin_counts[j]`
in one pass: each half-bin index `i` adds its interval count `ct` at the
mirror positions `half - 1 + i` and `half - 1 - i`. -/
def acgPassContrib (bin_size : ℚ) (num_bins half : Nat) (deltas : List ℚ)
    (j : Nat) : Nat :=
  ((List.range half).map (fun i =>
    (if j = half - 1 + i then
      (deltas.filter (fun d =>
        acgEdge bin_size num_bins (half - 1 + i) ≤ d ∧
          d < acgEdge bin_size num_bins (half + i))).length
     else 0) +
    (if j = half - 1 - i then
      (deltas.filter (fun d =>
        acgEdge bin_size num_bins (half - 1 + i) ≤ d ∧
          d < acgEdge bin_size num_bins (half + i))).length
     else 0))).sum

/-- The unbounded `while True` loop of lines 479-496, embedded with an
explicit fuel parameter: each pass consumes one unit of fuel, breaks when the
offset reaches the train length or no difference at the current offset lies
within the window, and otherwise increments the offset; `none` models fuel
exhaustion (the loop still running). -/
def acgLoop (bin_size : ℚ) (num_bins half : Nat) (times : List ℚ) :
    Nat → Nat → List Nat → Option (List Nat)
  | 0, _, _ => none
  | fuel + 1, offset, counts =>
    if times.length ≤ offset then some counts
    else
      if ((acgDeltas times offset).filter
          (fun d => d ≤ acgEdge bin_size num_bins num_bins)).length = 0 then some counts
      else
        acgLoop bin_size num_bins half times fuel (offset + 1)
          ((List.range num_bins).map
            (fun j => counts.getD j 0 +
              acgPassContrib bin_size num_bins half
                ((acgDeltas times offset).filter
                  (fun d => d ≤ acgEdge bin_size num_bins num_bins)) j))

/-- `compute_unit_autocorrelogram(spike_train, bin_size_ms, window_ms)`:
bin edges in seconds and per-bin counts; `none` would mean the loop ran out
of the `len(spike_train) + 1` passes it can ever need. -/
def compute_unit_autocorrelogram (spike_train : List ℚ)
    (bin_size_ms window_ms : ℚ) : Option (List ℚ × List Nat) :=
  match acgLoop bin_size_ms (acgBins bin_size_ms window_ms)
      ((acgBins bin_size_ms window_ms + 1) / 2) spike_train
      (spike_train.length + 1) 1
      (List.replicate (acgBins bin_size_ms window_ms) 0) with
  | some counts =>
    some ((List.range (acgBins bin_size_ms window_ms + 1)).map
      (fun i => acgEdge bin_size_ms (acgBins bin_size_ms window_ms) i / 1000), counts)
  | none => none

/-- C10: the autocorrelogram loop terminates on every finite spike train:
each pass either breaks (offset reached the train length, or no difference at
the current offset lies within the window) or strictly increments the offset,
so from offset `o` at most `len(spike_train) - o` passes increment the offset
and `len - o + 1` passes of fuel always suffice; in particular the uses of
`compute_unit_autocorrelogram` (fuel `len + 1`, starting offset 1, i.e. at
most `len(spike_train)` loop iterations) always return a result, for every
input array and bin/window parameters. -/
theorem C10_autocorrelogram_terminates :
    (∀ (bin_size : ℚ) (num_bins half : Nat) (times : List ℚ)
        (fuel offset : Nat) (counts : List Nat),
      times.length - offset < fuel →
      ∃ res, acgLoop bin_size num_bins half times fuel offset counts = some res) ∧
    (∀ (spike_train : List ℚ) (bin_size_ms window_ms : ℚ),
      ∃ r, compute_unit_autocorrelogram spike_train bin_size_ms window_ms = some r) := by
  have main : ∀ (bin_size : ℚ) (num_bins half : Nat) (times : List ℚ)
      (fuel offset : Nat) (counts : List Nat),
      times.length - offset < fuel →
      ∃ res, acgLoop bin_size num_bins half times fuel offset counts = some res := by
    intro bin_size num_bins half times fuel
    induction fuel with
    | zero =>
      intro offset counts h
      omega
    | succ f ih =>
      intro offset counts h
      by_cases h1 : times.length ≤ offset
      · exact ⟨counts, by simp only [acgLoop, if_pos h1]⟩
      · by_cases h2 : ((acgDeltas times offset).filter
            (fun d => d ≤ acgEdge bin_size num_bins num_bins)).length = 0
        · exact ⟨counts, by simp only [acgLoop, if_neg h1, if_pos h2]⟩
        · rcases ih (offset + 1) ((List.range num_bins).map
              (fun j => counts.getD j 0 +
                acgPassContrib bin_size num_bins half
                  ((acgDeltas times offset).filter
                    (fun d => d ≤ acgEdge bin_size num_bins num_bins)) j))
            (by omega) with ⟨res, hres⟩
          exact ⟨res, by simp only [acgLoop, if_neg h1, if_neg h2]; exact hres⟩
  refine ⟨main, ?_⟩
  intro spike_train bin_size_ms window_ms
  rcases main bin_size_ms (acgBins bin_size_ms window_ms)
      ((acgBins bin_size_ms window_ms + 1) / 2) spike_train
      (spike_train.length + 1) 1
      (List.replicate (acgBins bin_size_ms window_ms) 0) (by omega) with ⟨res, hres⟩
  refine ⟨((List.range (acgBins bin_size_ms window_ms + 1)).map
      (fun i => acgEdge bin_size_ms (acgBins bin_size_ms window_ms) i / 1000), res), ?_⟩
  unfold compute_unit_autocorrelogram
  rw [hres]

/-- Witness for C10 at a concrete input: a one-spike train with fuel 2 from
offset 1, and the full autocorrelogram call on the same train. -/
theorem C10_autocorrelogram_terminates_witness :
    (([(0 : ℚ)] : List ℚ).length - 1 < 2 ∧
      ∃ res, acgLoop 1 99 50 [(0 : ℚ)] 2 1 [] = some res) ∧
    ∃ r, compute_unit_autocorrelogram [(0 : ℚ)] 1 100 = some r := by
  refine ⟨⟨by decide, ?_⟩, ?_⟩
  · exact C10_autocorrelogram_terminates.1 1 99 50 [(0 : ℚ)] 2 1 [] (by decide)
  · exact C10_autocorrelogram_terminates.2 [(0 : ℚ)] 1 100

/-- Number of index pairs at gap exactly `g` whose time difference (in ms)
is strictly inside the histogram extent `w`. -/
def gapCount (times : List ℚ) (w : ℚ) (g : Nat) : Nat :=
  ((Finset.range (times.length - g)).filter
    (fun i => (times.getD (i + g) 0 - times.getD i 0) * 1000 < w)).card

/-- Pairs of gap at least `o` inside the histogram extent. -/
def tailCount (times : List ℚ) (w : ℚ) (o : Nat) : Nat :=
  ∑ g ∈ Finset.Ico o times.length, gapCount times w g

/-- Brute-force count of ordered pairs `(i, j)`, `i ≠ j`, whose time
difference in milliseconds is strictly smaller than `w`. -/
def orderedPairCount (times : List ℚ) (w : ℚ) : Nat :=
  ((Finset.range times.length ×ˢ Finset.range times.length).filter
    (fun p => p.1 ≠ p.2 ∧ |times.getD p.1 0 - times.getD p.2 0| * 1000 < w)).card

lemma list_sum_range (f : Nat → Nat) (n : Nat) :
    ((List.range n).map f).sum = ∑ i ∈ Finset.range n, f i := by
  induction n with
  | zero => rfl
  | succ m ih =>
    rw [List.range_succ, List.map_append, List.sum_append, Finset.sum_range_succ, ih]
    simp

lemma countP_range_eq_card (m : Nat) (q : Nat → Bool) :
    (List.range m).countP q = ((Finset.range m).filter (fun i => q i = true)).card := by
  induction m with
  | zero => rfl
  | succ k ih =>
    rw [List.range_succ, List.countP_append, Finset.range_succ, Finset.filter_insert, ih]
    by_cases hq : q k = true
    · rw [if_pos hq, Finset.card_insert_of_not_mem (by
        intro hmem
        exact absurd (Finset.mem_range.mp (Finset.mem_of_mem_filter k hmem))
          (lt_irrefl k))]
      simp [hq]
    · rw [if_neg hq]
      simp [List.countP, List.countP.go, hq]

lemma sorted_getD_mono {times : List ℚ} (hs : List.Chain' (· ≤ ·) times) {a b : Nat}
    (hab : a ≤ b) (hb : b < times.length) : times.getD a 0 ≤ times.getD b 0 := by
  have hp : List.Pairwise (· ≤ ·) times := List.chain'_iff_pairwise.mp hs
  rcases Nat.lt_or_ge a b with h | h
  · have := List.pairwise_iff_getElem.mp hp a b (by omega) hb h
    rwa [List.getD_eq_getElem _ _ (by omega), List.getD_eq_getElem _ _ hb]
  · have hab' : a = b := by omega
    rw [hab']

lemma acgBins_eval : acgBins 1 100 = 99 := by
  norm_num [acgBins, pyInt]
  decide

lemma acgEdge_one (j : Nat) : acgEdge 1 99 j = (j : ℚ) - 99 / 2 := by
  unfold acgEdge
  ring

lemma acgEdge_last : acgEdge 1 99 99 = 99 / 2 := by
  rw [acgEdge_one]
  norm_num

/-- Each difference inside the histogram extent falls into exactly one of
the 50 half-bins `[i - 1/2, i + 1/2)`; a difference equal to the last bin
edge falls into none. -/
lemma bin_indicator (d : ℚ) (h0 : 0 ≤ d) (hw : d ≤ 99 / 2) :
    (∑ i ∈ Finset.range 50,
        (if acgEdge 1 99 (49 + i) ≤ d ∧ d < acgEdge 1 99 (50 + i) then 1 else 0)) =
      (if d < 99 / 2 then (1 : Nat) else 0) := by
  by_cases hdw : d < 99 / 2
  · rw [if_pos hdw]
    have hk0 : (0 : ℤ) ≤ ⌊d + 1/2⌋ := Int.le_floor.mpr (by push_cast; linarith)
    have hk50 : ⌊d + 1/2⌋ < 50 := Int.floor_lt.mpr (by push_cast; linarith)
    have hi0k : (((⌊d + 1/2⌋).toNat : Nat) : ℤ) = ⌊d + 1/2⌋ := Int.toNat_of_nonneg hk0
    have hcond : ∀ i : Nat,
        (acgEdge 1 99 (49 + i) ≤ d ∧ d < acgEdge 1 99 (50 + i)) ↔
          i = (⌊d + 1/2⌋).toNat := by
      intro i
      rw [acgEdge_one, acgEdge_one]
      constructor
      · rintro ⟨hle, hlt⟩
        have h1 : (i : ℤ) ≤ ⌊d + 1/2⌋ := Int.le_floor.mpr (by push_cast at hle ⊢; linarith)
        have h2 : ⌊d + 1/2⌋ < (i : ℤ) + 1 := Int.floor_lt.mpr (by push_cast at hlt ⊢; linarith)
        omega
      · intro h
        have hik : (i : ℤ) = ⌊d + 1/2⌋ := by omega
        have hfl := Int.floor_le (d + 1/2)
        have hfu := Int.lt_floor_add_one (d + 1/2)
        rw [← hik] at hfl hfu
        push_cast at hfl hfu
        constructor
        · push_cast; linarith
        · push_cast; linarith
    rw [Finset.sum_congr rfl (fun i _ => if_congr (hcond i) rfl rfl),
      Finset.sum_ite_eq' (Finset.range 50) ((⌊d + 1/2⌋).toNat) (fun _ => 1),
      if_pos (Finset.mem_range.mpr (by omega))]
  · rw [if_neg hdw]
    apply Finset.sum_eq_zero
    intro i hi
    rw [if_neg]
    rintro ⟨-, hlt⟩
    rw [acgEdge_one] at hlt
    have hi49 : (i : ℚ) ≤ 49 := by exact_mod_cast Nat.lt_succ_iff.mp (Finset.mem_range.mp hi)
    push_cast at hlt
    linarith

/-- Summing the binning-interval counts over the 50 half-bins counts each
difference strictly inside the histogram extent exactly once. -/
lemma acg_filter_sum_countP (deltas : List ℚ) (hpos : ∀ d ∈ deltas, 0 ≤ d)
    (hle : ∀ d ∈ deltas, d ≤ acgEdge 1 99 99) :
    (∑ i ∈ Finset.range 50, (deltas.filter (fun d =>
        acgEdge 1 99 (49 + i) ≤ d ∧ d < acgEdge 1 99 (50 + i))).length) =
      deltas.countP (fun d => d < acgEdge 1 99 99) := by
  induction deltas with
  | nil => simp [List.countP, List.countP.go]
  | cons d tl ih =>
    have hd0 : 0 ≤ d := hpos d (List.mem_cons_self d tl)
    have hdle : d ≤ 99 / 2 := by
      have := hle d (List.mem_cons_self d tl)
      rwa [acgEdge_last] at this
    have ihtl := ih (fun x hx => hpos x (List.mem_cons_of_mem _ hx))
      (fun x hx => hle x (List.mem_cons_of_mem _ hx))
    rw [List.countP_cons]
    have hfc : ∀ i : Nat, (List.filter (fun x =>
        decide (acgEdge 1 99 (49 + i) ≤ x ∧ x < acgEdge 1 99 (50 + i))) (d :: tl)).length
        = (List.filter (fun x =>
        decide (acgEdge 1 99 (49 + i) ≤ x ∧ x < acgEdge 1 99 (50 + i))) tl).length
          + (if (acgEdge 1 99 (49 + i) ≤ d ∧ d < acgEdge 1 99 (50 + i)) then 1 else 0) := by
      intro i
      rw [List.filter_cons]
      by_cases hc : acgEdge 1 99 (49 + i) ≤ d ∧ d < acgEdge 1 99 (50 + i)
      · rw [if_pos (decide_eq_true hc), if_pos hc, List.length_cons]
      · rw [if_neg (by simpa using hc), if_neg hc, Nat.add_zero]
    rw [Finset.sum_congr rfl (fun i _ => hfc i), Finset.sum_add_distrib, ihtl,
      bin_indicator d hd0 hdle, acgEdge_last]
    by_cases hdlt : d < 99 / 2
    · rw [if_pos hdlt, if_pos (decide_eq_true hdlt)]
    · rw [if_neg hdlt, if_neg (by simpa using hdlt), Nat.add_zero]

set_option maxHeartbeats 1000000 in
/-- Summing the per-pass contribution over all 99 bins gives twice the
number of differences strictly inside the histogram extent. -/
lemma acgPassContrib_total (deltas : List ℚ) (hpos : ∀ d ∈ deltas, 0 ≤ d)
    (hle : ∀ d ∈ deltas, d ≤ acgEdge 1 99 99) :
    (∑ j ∈ Finset.range 99, acgPassContrib 1 99 50 deltas j) =
      2 * deltas.countP (fun d => d < acgEdge 1 99 99) := by
  have hstep : ∀ j, acgPassContrib 1 99 50 deltas j =
      ∑ i ∈ Finset.range 50,
        ((if j = 50 - 1 + i then
          (deltas.filter (fun d =>
            acgEdge 1 99 (50 - 1 + i) ≤ d ∧ d < acgEdge 1 99 (50 + i))).length
         else 0) +
        (if j = 50 - 1 - i then
          (deltas.filter (fun d =>
            acgEdge 1 99 (50 - 1 + i) ≤ d ∧ d < acgEdge 1 99 (50 + i))).length
         else 0)) := by
    intro j
    unfold acgPassContrib
    rw [list_sum_range]
  rw [Finset.sum_congr rfl (fun j _ => hstep j), Finset.sum_comm]
  simp only [show (50 : Nat) - 1 = 49 from rfl]
  have hinner : ∀ i ∈ Finset.range 50,
      (∑ j ∈ Finset.range 99,
        ((if j = 49 + i then
          (deltas.filter (fun d =>
            acgEdge 1 99 (49 + i) ≤ d ∧ d < acgEdge 1 99 (50 + i))).length
         else 0) +
        (if j = 49 - i then
          (deltas.filter (fun d =>
            acgEdge 1 99 (49 + i) ≤ d ∧ d < acgEdge 1 99 (50 + i))).length
         else 0))) =
      2 * (deltas.filter (fun d =>
        acgEdge 1 99 (49 + i) ≤ d ∧ d < acgEdge 1 99 (50 + i))).length := by
    intro i hi
    have hi50 : i < 50 := Finset.mem_range.mp hi
    rw [Finset.sum_add_distrib,
      Finset.sum_ite_eq' (Finset.range 99) (49 + i),
      Finset.sum_ite_eq' (Finset.range 99) (49 - i),
      if_pos (Finset.mem_range.mpr (by omega)),
      if_pos (Finset.mem_range.mpr (by omega))]
    omega
  rw [Finset.sum_congr rfl hinner, ← Finset.mul_sum,
    acg_filter_sum_countP deltas hpos hle]

/-- One pass of the loop adds twice the number of in-range differences to
the total bin count. -/
lemma acg_counts_update_sum (counts : List Nat) (hlen : counts.length = 99)
    (deltas : List ℚ) (hpos : ∀ d ∈ deltas, 0 ≤ d)
    (hle : ∀ d ∈ deltas, d ≤ acgEdge 1 99 99) :
    ((List.range 99).map
      (fun j => counts.getD j 0 + acgPassContrib 1 99 50 deltas j)).sum =
      counts.sum + 2 * deltas.countP (fun d => d < acgEdge 1 99 99) := by
  rw [list_sum_range, Finset.sum_add_distrib, acgPassContrib_total deltas hpos hle]
  have h2 : ∑ j ∈ Finset.range 99, counts.getD j 0 = counts.sum := by
    have hmap := congrArg List.sum (range_map_getD counts 0)
    rw [← list_sum_range]
    rw [← hmap, hlen]
  rw [h2]

lemma acgDeltas_mem {times : List ℚ} {offset : Nat} {d : ℚ}
    (hd : d ∈ acgDeltas times offset) :
    ∃ i, i < times.length - offset ∧
      d = (times.getD (i + offset) 0 - times.getD i 0) * 1000 := by
  rcases List.mem_map.mp hd with ⟨i, hi, rfl⟩
  exact ⟨i, List.mem_range.mp hi, rfl⟩

lemma acgDeltas_nonneg {times : List ℚ} (hs : List.Chain' (· ≤ ·) times)
    (offset : Nat) : ∀ d ∈ acgDeltas times offset, 0 ≤ d := by
  intro d hd
  rcases acgDeltas_mem hd with ⟨i, hi, rfl⟩
  have hmono := sorted_getD_mono hs (Nat.le_add_right i offset) (by omega)
  have : (0 : ℚ) ≤ times.getD (i + offset) 0 - times.getD i 0 := by linarith
  nlinarith

/-- The number of differences at the current offset kept by the binning loop
equals the gap count at that offset. -/
lemma acg_filtered_countP (times : List ℚ) (offset : Nat) :
    ((acgDeltas times offset).filter (fun d => d ≤ acgEdge 1 99 99)).countP
        (fun d => d < acgEdge 1 99 99) =
      gapCount times (acgEdge 1 99 99) offset := by
  rw [List.countP_filter]
  unfold acgDeltas
  rw [List.countP_map]
  have hcong : ∀ i ∈ List.range (times.length - offset),
      ((fun a => decide (a < acgEdge 1 99 99) && decide (a ≤ acgEdge 1 99 99)) ∘
        (fun i => (times.getD (i + offset) 0 - times.getD i 0) * 1000)) i = true ↔
      (decide ((times.getD (i + offset) 0 - times.getD i 0) * 1000 < acgEdge 1 99 99))
        = true := by
    intro i _
    simp only [Function.comp, Bool.and_eq_true, decide_eq_true_eq]
    constructor
    · rintro ⟨h1, -⟩; exact h1
    · intro h; exact ⟨h, le_of_lt h⟩
  rw [List.countP_congr hcong, countP_range_eq_card]
  unfold gapCount
  congr 1
  apply Finset.filter_congr
  intro i _
  simp

/-- If no difference at the current offset lies within the window then, for a
sorted train, no pair of gap at least the current offset does either. -/
lemma acg_tail_zero {times : List ℚ} (hs : List.Chain' (· ≤ ·) times) {offset : Nat}
    (hempty : ((acgDeltas times offset).filter
      (fun d => d ≤ acgEdge 1 99 99)).length = 0) :
    tailCount times (acgEdge 1 99 99) offset = 0 := by
  have hnone : ∀ d ∈ acgDeltas times offset, ¬(d ≤ acgEdge 1 99 99) := by
    intro d hd hcon
    have := List.filter_eq_nil.mp (List.length_eq_zero.mp hempty) d hd
    simp only [decide_eq_true_eq] at this
    exact this hcon
  unfold tailCount
  apply Finset.sum_eq_zero
  intro g hg
  rcases Finset.mem_Ico.mp hg with ⟨hgo, hgn⟩
  unfold gapCount
  rw [Finset.card_eq_zero]
  apply Finset.filter_eq_empty_iff.mpr
  intro i hi
  have hign : i < times.length - g := Finset.mem_range.mp hi
  have hio : i < times.length - offset := by omega
  have hdo : (times.getD (i + offset) 0 - times.getD i 0) * 1000 ∈
      acgDeltas times offset := by
    unfold acgDeltas
    exact List.mem_map.mpr ⟨i, List.mem_range.mpr hio, rfl⟩
  have h1 : ¬((times.getD (i + offset) 0 - times.getD i 0) * 1000 ≤ acgEdge 1 99 99) :=
    hnone _ hdo
  have hmono : times.getD (i + offset) 0 ≤ times.getD (i + g) 0 :=
    sorted_getD_mono hs (by omega) (by omega)
  intro hcon
  apply h1
  have : (times.getD (i + offset) 0 - times.getD i 0) * 1000 ≤
      (times.getD (i + g) 0 - times.getD i 0) * 1000 := by nlinarith
  linarith

/-- Loop invariant: starting at a given offset with enough fuel, the loop
returns and adds to the running histogram exactly twice the number of pairs
of gap at least the offset that lie strictly inside the histogram extent. -/
lemma acgLoop_sum_invariant (times : List ℚ) (hs : List.Chain' (· ≤ ·) times) :
    ∀ (fuel offset : Nat) (counts : List Nat),
      times.length - offset < fuel → counts.length = 99 →
      ∃ res, acgLoop 1 99 50 times fuel offset counts = some res ∧
        res.sum = counts.sum + 2 * tailCount times (acgEdge 1 99 99) offset := by
  intro fuel
  induction fuel with
  | zero =>
    intro offset counts h _
    omega
  | succ f ih =>
    intro offset counts hfc hlen
    by_cases h1 : times.length ≤ offset
    · refine ⟨counts, by simp only [acgLoop, if_pos h1], ?_⟩
      have hz : tailCount times (acgEdge 1 99 99) offset = 0 := by
        unfold tailCount
        rw [Finset.Ico_eq_empty (by omega), Finset.sum_empty]
      rw [hz]
      omega
    · by_cases h2 : ((acgDeltas times offset).filter
          (fun d => d ≤ acgEdge 1 99 99)).length = 0
      · refine ⟨counts, by simp only [acgLoop, if_neg h1, if_pos h2], ?_⟩
        rw [acg_tail_zero hs h2]
        omega
      · have hnew_len : ((List.range 99).map
            (fun j => counts.getD j 0 + acgPassContrib 1 99 50
              ((acgDeltas times offset).filter
                (fun d => d ≤ acgEdge 1 99 99)) j)).length = 99 := by
          rw [List.length_map, List.length_range]
        rcases ih (offset + 1) _ (by omega) hnew_len with ⟨res, hres, hsum⟩
        refine ⟨res, ?_, ?_⟩
        · simp only [acgLoop, if_neg h1, if_neg h2]
          exact hres
        · rw [hsum, acg_counts_update_sum counts hlen _
            (fun d hd => acgDeltas_nonneg hs offset d (List.mem_of_mem_filter hd))
            (fun d hd => by simpa using List.of_mem_filter hd),
            acg_filtered_countP]
          have hsplit : tailCount times (acgEdge 1 99 99) offset =
              gapCount times (acgEdge 1 99 99) offset +
                tailCount times (acgEdge 1 99 99) (offset + 1) := by
            unfold tailCount
            exact Finset.sum_eq_sum_Ico_succ_bot (by omega) _
          rw [hsplit]
          ring

/-- For a sorted train, the brute-force ordered-pair count is twice the
number of pairs of gap at least one strictly inside the extent. -/
lemma orderedPairCount_eq_two_tailCount (times : List ℚ)
    (hs : List.Chain' (· ≤ ·) times) (w : ℚ) :
    orderedPairCount times w = 2 * tailCount times w 1 := by
  classical
  have hmono : ∀ {a b : Nat}, a ≤ b → b < times.length →
      times.getD a 0 ≤ times.getD b 0 := fun hab hb => sorted_getD_mono hs hab hb
  set n := times.length with hn
  set P : Nat × Nat → Prop :=
    fun p => p.1 ≠ p.2 ∧ |times.getD p.1 0 - times.getD p.2 0| * 1000 < w with hP
  set A : Finset (Nat × Nat) :=
    (Finset.range n ×ˢ Finset.range n).filter P with hA
  set B : Finset (Nat × Nat) :=
    (Finset.range n ×ˢ Finset.range n).filter
      (fun p => p.1 < p.2 ∧ (times.getD p.2 0 - times.getD p.1 0) * 1000 < w) with hB
  have hcard_split : (A.filter (fun p => p.1 < p.2)).card +
      (A.filter (fun p => ¬ p.1 < p.2)).card = A.card :=
    Finset.filter_card_add_filter_neg_card_eq_card _
  have hA2_eq_A1 : (A.filter (fun p => ¬ p.1 < p.2)).card =
      (A.filter (fun p => p.1 < p.2)).card := by
    apply Finset.card_bij (fun p _ => p.swap)
    · intro p hp
      rcases Finset.mem_filter.mp hp with ⟨hpA, hnlt⟩
      rcases Finset.mem_filter.mp hpA with ⟨hprod, hPp⟩
      rcases Finset.mem_product.mp hprod with ⟨hp1, hp2⟩
      refine Finset.mem_filter.mpr ⟨Finset.mem_filter.mpr
        ⟨Finset.mem_product.mpr ⟨hp2, hp1⟩, ?_⟩, ?_⟩
      · exact ⟨hPp.1.symm, by rw [abs_sub_comm]; exact hPp.2⟩
      · have hne := hPp.1
        simp only [Prod.fst_swap, Prod.snd_swap]
        omega
    · intro p1 h1 p2 h2 heq
      exact Prod.swap_injective heq
    · intro q hq
      rcases Finset.mem_filter.mp hq with ⟨hqA, hlt⟩
      rcases Finset.mem_filter.mp hqA with ⟨hprod, hPq⟩
      rcases Finset.mem_product.mp hprod with ⟨hq1, hq2⟩
      refine ⟨q.swap, Finset.mem_filter.mpr ⟨Finset.mem_filter.mpr
        ⟨Finset.mem_product.mpr ⟨hq2, hq1⟩, ?_⟩, ?_⟩, Prod.swap_swap q⟩
      · exact ⟨hPq.1.symm, by rw [abs_sub_comm]; exact hPq.2⟩
      · simp only [Prod.fst_swap, Prod.snd_swap]
        omega
  have hA1_eq_B : (A.filter (fun p => p.1 < p.2)).card = B.card := by
    congr 1
    rw [hA, Finset.filter_filter, hB]
    apply Finset.filter_congr
    intro p hp
    rcases Finset.mem_product.mp hp with ⟨hp1, hp2⟩
    constructor
    · rintro ⟨⟨-, habs⟩, hlt⟩
      refine ⟨hlt, ?_⟩
      have hle : times.getD p.1 0 ≤ times.getD p.2 0 :=
        hmono (le_of_lt hlt) (Finset.mem_range.mp hp2)
      rwa [abs_sub_comm, abs_of_nonneg (by linarith)] at habs
    · rintro ⟨hlt, hsub⟩
      have hle : times.getD p.1 0 ≤ times.getD p.2 0 :=
        hmono (le_of_lt hlt) (Finset.mem_range.mp hp2)
      refine ⟨⟨by omega, ?_⟩, hlt⟩
      rwa [abs_sub_comm, abs_of_nonneg (by linarith)]
  have hB_eq_tail : B.card = tailCount times w 1 := by
    unfold tailCount gapCount
    rw [← Finset.card_sigma]
    apply (Finset.card_bij (fun (gi : (_ : Nat) × Nat) _ => (gi.2, gi.2 + gi.1)) _ _ _).symm
    · intro gi hgi
      dsimp only
      rcases Finset.mem_sigma.mp hgi with ⟨hg, hi⟩
      rcases Finset.mem_Ico.mp hg with ⟨hg1, hgn⟩
      rcases Finset.mem_filter.mp hi with ⟨hirange, hcond⟩
      have hilt : gi.2 < n - gi.1 := Finset.mem_range.mp hirange
      refine Finset.mem_filter.mpr ⟨Finset.mem_product.mpr
        ⟨Finset.mem_range.mpr (by omega), Finset.mem_range.mpr (by omega)⟩, ?_, ?_⟩
      · omega
      · exact hcond
    · intro g1 h1 g2 h2 heq
      have e1 : g1.2 = g2.2 := congrArg Prod.fst heq
      have e2 : g1.2 + g1.1 = g2.2 + g2.1 := congrArg Prod.snd heq
      have e3 : g1.1 = g2.1 := by omega
      exact Sigma.ext e3 (by rw [e1])
    · intro p hp
      dsimp only
      rcases Finset.mem_filter.mp hp with ⟨hprod, hlt, hcond⟩
      rcases Finset.mem_product.mp hprod with ⟨hp1, hp2⟩
      have hp1n : p.1 < n := Finset.mem_range.mp hp1
      have hp2n : p.2 < n := Finset.mem_range.mp hp2
      have hadd : p.1 + (p.2 - p.1) = p.2 := by omega
      refine ⟨⟨p.2 - p.1, p.1⟩, ?_, ?_⟩
      · rw [Finset.mem_sigma]
        dsimp only
        refine ⟨Finset.mem_Ico.mpr ⟨by omega, by omega⟩,
          Finset.mem_filter.mpr ⟨Finset.mem_range.mpr (by omega), ?_⟩⟩
        rw [hadd]
        exact hcond
      · dsimp only
        rw [Prod.ext_iff]
        exact ⟨rfl, hadd⟩
  unfold orderedPairCount
  show A.card = 2 * tailCount times w 1
  rw [← hcard_split, hA2_eq_A1, hA1_eq_B, hB_eq_tail]
  ring

/-- C6: for every sorted spike train, the total bin count of
`compute_unit_autocorrelogram` with 1 ms bins and a 100 ms window (hence 99
bins and a symmetric histogram extending to the last bin edge
`bin_edges[-1] = 49.5 ms`) equals the brute-force number of ordered pairs
`(i, j)`, `i ≠ j`, whose time difference satisfies `|Δt| <` that histogram
extent. -/
theorem C6_autocorrelogram_total_is_pair_count (times : List ℚ)
    (hs : List.Chain' (· ≤ ·) times) :
    ∃ edges counts,
      compute_unit_autocorrelogram times 1 100 = some (edges, counts) ∧
      counts.sum = orderedPairCount times
        (acgEdge 1 (acgBins 1 100) (acgBins 1 100)) := by
  rcases acgLoop_sum_invariant times hs (times.length + 1) 1 (List.replicate 99 0)
      (by omega) (by simp) with ⟨res, hres, hsum⟩
  refine ⟨(List.range (acgBins 1 100 + 1)).map
      (fun i => acgEdge 1 (acgBins 1 100) i / 1000), res, ?_, ?_⟩
  · unfold compute_unit_autocorrelogram
    rw [acgBins_eval, show ((99 : Nat) + 1) / 2 = 50 from rfl, hres]
  · rw [acgBins_eval, orderedPairCount_eq_two_tailCount times hs, hsum]
    simp

/-- Witness for C6 at the claim's concrete spike train
`[0, 0.01, 0.02, 0.05, 0.08]` seconds: the sortedness hypothesis of
`C6_autocorrelogram_total_is_pair_count` is discharged by computation and the
total bin count equals the brute-force ordered-pair count. -/
theorem C6_autocorrelogram_total_is_pair_count_witness :
    List.Chain' (· ≤ ·) ([0, 1/100, 2/100, 5/100, 8/100] : List ℚ) ∧
    ∃ edges counts,
      compute_unit_autocorrelogram [0, 1/100, 2/100, 5/100, 8/100] 1 100 =
        some (edges, counts) ∧
      counts.sum = orderedPairCount [0, 1/100, 2/100, 5/100, 8/100]
        (acgEdge 1 (acgBins 1 100) (acgBins 1 100)) := by
  have hs : List.Chain' (· ≤ ·) ([0, 1/100, 2/100, 5/100, 8/100] : List ℚ) := by
    norm_num [List.chain'_cons]
  exact ⟨hs, C6_autocorrelogram_total_is_pair_count _ hs⟩

/-! ## The artifact tree and the stage scheduler
(`start/epoch_block_processor.py`, `start/file_processors.py`,
`start/run_start.py`)

Directories are association lists from names to entries; artifact existence is
membership.  Python's `sorted(os.listdir(...))` is modelled by sorting the
keys under byte-wise lexicographic string order.  Numeric payloads whose
values no claim inspects (filtered samples, shift coefficients, statistics)
are reduced to the artifact's existence; payloads the claims do inspect
(shifted samples, high-activity intervals, sorting files) carry their
contents. -/

/-- Lexicographic comparison of character lists (Python string order for the
ASCII names used by the pipeline). -/
def charListLe : List Char → List Char → Bool
  | [], _ => true
  | _ :: _, [] => false
  | a :: as, b :: bs =>
    if a.toNat < b.toNat then true
    else if b.toNat < a.toNat then false
    else charListLe as bs

def strLe (a b : String) : Prop := charListLe a.data b.data = true

instance strLe.decRel : DecidableRel strLe := fun a b => by
  unfold strLe; infer_instance

/-- `s.endswith(suffix)` on the underlying characters. -/
def strEndsWith (s suffix : String) : Bool :=
  decide (s.data.drop (s.data.length - suffix.data.length) = suffix.data)

/-- Left-to-right non-overlapping replacement of every occurrence of `pat`
by `rep` (Python `str.replace`); the fuel starts at the list length, which
bounds the number of steps because each step consumes at least one
character. -/
def replaceChars (pat rep : List Char) : Nat → List Char → List Char
  | _, [] => []
  | 0, s => s
  | fuel + 1, c :: rest =>
    if decide (pat ≠ []) && decide ((c :: rest).take pat.length = pat) then
      rep ++ replaceChars pat rep fuel ((c :: rest).drop pat.length)
    else c :: replaceChars pat rep fuel rest

def strReplace (s pat rep : String) : String :=
  String.mk (replaceChars pat.data rep.data s.data.length s.data)

/-- Python `int(s)` restricted to the shapes the scheduler feeds it: an
optional minus sign followed by digits; anything else raises `ValueError`,
modelled as `none`. -/
def parseIntStr (s : String) : Option Int :=
  let core : List Char → Option Nat := fun ds =>
    if decide (ds ≠ []) && ds.all (fun c => 48 ≤ c.toNat && c.toNat ≤ 57) then
      some (ds.foldl (fun n c => n * 10 + (c.toNat - 48)) 0)
    else none
  match s.data with
  | '-' :: rest => (core rest).map (fun n => -((n : Nat) : Int))
  | ds => (core ds).map (fun n => ((n : Nat) : Int))

/-- Decimal digits of `n`, most significant first (empty for 0). -/
def natDigitsGo : Nat → Nat → List Char
  | 0, _ => []
  | fuel + 1, n =>
    if n = 0 then []
    else natDigitsGo fuel (n / 10) ++ [Char.ofNat (48 + n % 10)]

/-- Python `f"{n:03d}"`. -/
def pad3 (n : Nat) : String :=
  let ds := if n = 0 then ['0'] else natDigitsGo (n + 1) n
  String.mk (List.replicate (3 - ds.length) '0' ++ ds)

/-- `f"segment_{num:03d}.bin"`. -/
def segFileName (num : Nat) : String := "segment_" ++ pad3 num ++ ".bin"

/-- `sorted(os.listdir(dir))`. -/
def sortedKeys {α : Type} (dir : List (String × α)) : List String :=
  List.insertionSort strLe (dir.map Prod.fst)

/-- Association-list lookup by decidable key equality. -/
def assocFind {κ α : Type} [DecidableEq κ] (l : List (κ × α)) (k : κ) : Option α :=
  match l.find? (fun p => p.1 = k) with
  | some p => some p.2
  | none => none

def dirHas (dir : List (String × List String)) (block name : String) : Bool :=
  match assocFind dir block with
  | some names => names.contains name
  | none => false

def dirFindD {α : Type} (dir : List (String × List (String × α)))
    (block name : String) : Option α :=
  match assocFind dir block with
  | some entries => assocFind entries name
  | none => none

def dirHasD {α : Type} (dir : List (String × List (String × α)))
    (block name : String) : Bool :=
  (dirFindD dir block name).isSome

def dirInsert (dir : List (String × List String)) (block name : String) :
    List (String × List String) :=
  match assocFind dir block with
  | some _ => dir.map (fun p => if p.1 = block then (p.1, p.2 ++ [name]) else p)
  | none => dir ++ [(block, [name])]

def dirInsertD {α : Type} (dir : List (String × List (String × α)))
    (block name : String) (v : α) : List (String × List (String × α)) :=
  match assocFind dir block with
  | some _ => dir.map (fun p => if p.1 = block then (p.1, p.2 ++ [(name, v)]) else p)
  | none => dir ++ [(block, [(name, v)])]

/-- The four `.npy` files of one sorting directory; a `none` field is a file
that does not exist. -/
structure SortingFiles where
  spike_times : Option (List ℚ)
  spike_labels : Option (List Int)
  spike_amplitudes : Option (List ℚ)
  templates : Option (List (List ℚ))
deriving DecidableEq

/-- "all required files exist". -/
def SortingFiles.complete (s : SortingFiles) : Bool :=
  s.spike_times.isSome && s.spike_labels.isSome &&
    s.spike_amplitudes.isSome && s.templates.isSome

/-- One acquisition epoch-block directory: `settled` abstracts the 5-second
quiescence test on file modification times (real time is outside the
embedding); each `.bin` file carries its int16 samples, with `none` for a
file whose read raises. -/
structure EpochBlockDir where
  settled : Bool
  files : List (String × Option (List Int))
deriving DecidableEq

/-- The artifact tree.  `reference_segment` holds the parsed content of
`reference_segment.txt` as a (block, segment-file) pair. -/
structure FS where
  acquisition : List (String × EpochBlockDir)
  raw : List (String × List String)
  shift_coeffs : Bool
  filt : List (String × List String)
  shifted : List (String × List (String × List (List ℚ)))
  stats : List (String × List String)
  high_activity : List (String × List (String × List (ℚ × ℚ)))
  reference_sorting : List ((String × String) × SortingFiles)
  spike_sorting : List (String × List (String × SortingFiles))
  epoch_block_spike_sorting : List (String × SortingFiles)
  preview : List (String × List String)
  epoch_block_preview : List String
  reference_segment : Option (String × String)
deriving DecidableEq

/-- Pipeline parameters from `config.yaml` and the electrode coordinates. -/
structure Config where
  n_channels : Nat
  sampling_frequency : ℚ
  samples_per_segment : Nat
  segment_duration_sec : ℚ
  electrode_coords : List (ℚ × ℚ)
  coarse_sorting_detect_threshold : ℚ
deriving DecidableEq

/-- Write-or-replace in an association list (`np.save` over an existing
file). -/
def setAssoc {κ α : Type} [DecidableEq κ] (l : List (κ × α)) (k : κ) (v : α) :
    List (κ × α) :=
  match assocFind l k with
  | some _ => l.map (fun p => if p.1 = k then (k, v) else p)
  | none => l ++ [(k, v)]

/-- Write-or-replace one file inside a block subdirectory, creating the
block directory if needed (`os.makedirs(..., exist_ok=True)` followed by the
write). -/
def setNested {α : Type} (d : List (String × List (String × α)))
    (block name : String) (v : α) : List (String × List (String × α)) :=
  match assocFind d block with
  | some _ => d.map (fun p => if p.1 = block then (block, setAssoc p.2 name v) else p)
  | none => d ++ [(block, [(name, v)])]

/-- The numeric kernels whose Python sources (`bandpass_filter.py`,
`time_shifts.py`, `high_activity_intervals.py`, `coarse_sorting.py`) are
absent from `src/`.  The scheduler stores their outputs and never inspects
them, so they enter the embedding as parameters — keyed by the artifact they
would be computed for, with the data dependency (filtered samples, shift
coefficients) absorbed into the key.  Every scheduling theorem quantifies
over them. -/
structure Kernels where
  shiftedData : String → String → List (List ℚ)
  highActivity : String → String → List (ℚ × ℚ)
  coarseSorting : String → String →
    List (List ℚ) × List ℚ × List Int × List ℚ

/-! ### The headerless-binary block reader
(`EpochBlockProcessor._read_epoch_block_binary` and `_chunk_to_segments`) -/

/-- `np.fromfile(...).reshape(-1, n_channels)`: rows of `n_channels`
consecutive samples (the divisibility of the length was checked by the
caller). -/
def reshapeRows (n_channels : Nat) (flat : List Int) : List (List Int) :=
  (List.range (flat.length / n_channels)).map
    (fun i => (flat.drop (i * n_channels)).take n_channels)

/-- The read loop of `_read_epoch_block_binary` lines 172-182 over the sorted
`.bin` names: a file whose read raises (payload `none`) aborts the whole read
(`none` — the surrounding `try` catches it); a file whose sample count is not
a multiple of `n_channels` is warned about and skipped (`continue`), keeping
the remaining files. -/
def readParts (n_channels : Nat) (files : List (String × Option (List Int))) :
    List String → Option (List (List (List Int)))
  | [] => some []
  | f :: rest =>
    match assocFind files f with
    | none => none
    | some none => none
    | some (some flat) =>
      match readParts n_channels files rest with
      | none => none
      | some parts =>
        if flat.length % n_channels = 0 then
          some (reshapeRows n_channels flat :: parts)
        else some parts

/-- The sorted `.bin` file names of an acquisition block (`bin_files`,
lines 161-164). -/
def binNames (d : EpochBlockDir) : List String :=
  (List.insertionSort strLe (d.files.map Prod.fst)).filter
    (fun f => strEndsWith f ".bin")

/-- `_read_epoch_block_binary` (`epoch_block_processor.py` lines 157-194):
sorted `.bin` files, concatenated after per-file reshape; `none` when there
are no `.bin` files, when a read raises, or when every file was skipped for a
size mismatch (`data_parts` empty). -/
def readEpochBlockBinary (n_channels : Nat) (d : EpochBlockDir) :
    Option (List (List Int)) :=
  if binNames d = [] then none
  else
    match readParts n_channels d.files (binNames d) with
    | none => none
    | some parts => if parts = [] then none else some parts.flatten

/-- `process_epoch_blocks` valid-block scan (`_get_valid_epoch_blocks`): the
sorted acquisition directories that have files, all quiescent for 5 seconds
(the `settled` flag). -/
def validEpochBlocks (fs : FS) : List String :=
  (List.insertionSort strLe (fs.acquisition.map Prod.fst)).filter (fun name =>
    match assocFind fs.acquisition name with
    | some d => d.settled && decide (d.files ≠ [])
    | none => false)

/-- The loop body of `process_epoch_blocks` lines 41-67: an already
materialized block (raw directory exists) is skipped; a block whose read
returns `None` is skipped with a warning and nothing written; otherwise the
data is chunked into `len // samples_per_segment` fixed-size raw segments. -/
def processEpochBlocksGo (cfg : Config) :
    FS → List String → Bool → Bool × FS
  | fs, [], acc => (acc, fs)
  | fs, name :: rest, acc =>
    if (assocFind fs.raw name).isSome then processEpochBlocksGo cfg fs rest acc
    else
      match assocFind fs.acquisition name with
      | none => processEpochBlocksGo cfg fs rest acc
      | some d =>
        match readEpochBlockBinary cfg.n_channels d with
        | none => processEpochBlocksGo cfg fs rest acc
        | some data =>
          let n_segments := data.length / cfg.samples_per_segment
          processEpochBlocksGo cfg
            { fs with raw := fs.raw ++
                [(name, (List.range n_segments).map (fun i => segFileName (i + 1)))] }
            rest true

/-- `EpochBlockProcessor.process_epoch_blocks`: materialize every valid,
unmaterialized acquisition block (this stage does not stop after one unit of
work). -/
def process_epoch_blocks (cfg : Config) (fs : FS) : Bool × FS :=
  let valid := validEpochBlocks fs
  if valid = [] then (false, fs)
  else processEpochBlocksGo cfg fs valid false

/-! ### The per-segment stages of `file_processors.py`

Each `process_*` scans `sorted(os.listdir(...))` nests for the first unit of
work whose output does not yet exist (`firstPending*`), performs it, and
returns `True` ("process one at a time"); when the scan finds nothing it
falls through to `return something_processed`, which is still `False`.  The
`.info` sidecar files are write-only for the scheduler and are omitted. -/

/-- The scan of `process_filtering`: first raw `.bin` segment without a
`.filt` artifact. -/
def firstPendingFilt (fs : FS) : Option (String × String) :=
  (sortedKeys fs.raw).findSome? (fun block =>
    match assocFind fs.raw block with
    | none => none
    | some names =>
      (List.insertionSort strLe names).findSome? (fun name =>
        if strEndsWith name ".bin" then
          if dirHas fs.filt block (name ++ ".filt") then none
          else some (block, name)
        else none))

/-- `process_filtering` (`file_processors.py` lines 48-102). -/
def process_filtering (fs : FS) : Bool × FS :=
  match firstPendingFilt fs with
  | none => (false, fs)
  | some (block, name) =>
    (true, { fs with filt := dirInsert fs.filt block (name ++ ".filt") })

/-- `process_shift_coeffs` (lines 105-144): needs a reference segment, runs
once (skips while `shift_coeffs.yaml` exists), and waits for the reference
segment's filtered artifact. -/
def process_shift_coeffs (fs : FS) : Bool × FS :=
  match fs.reference_segment with
  | none => (false, fs)
  | some (rb, rs) =>
    if fs.shift_coeffs then (false, fs)
    else if dirHas fs.filt rb (rs ++ ".filt") then
      (true, { fs with shift_coeffs := true })
    else (false, fs)

/-- The scan of `process_shifting`: first `.filt` artifact without a
`.shifted` artifact. -/
def firstPendingShift (fs : FS) : Option (String × String) :=
  (sortedKeys fs.filt).findSome? (fun block =>
    match assocFind fs.filt block with
    | none => none
    | some names =>
      (List.insertionSort strLe names).findSome? (fun name =>
        if strEndsWith name ".filt" then
          if dirHasD fs.shifted block (name ++ ".shifted") then none
          else some (block, name)
        else none))

/-- `process_shifting` (lines 147-213): nothing without `shift_coeffs.yaml`;
otherwise shift the first pending filtered segment. -/
def process_shifting (K : Kernels) (fs : FS) : Bool × FS :=
  if !fs.shift_coeffs then (false, fs)
  else
    match firstPendingShift fs with
    | none => (false, fs)
    | some (block, name) =>
      (true, { fs with
        shifted := setNested fs.shifted block (name ++ ".shifted")
          (K.shiftedData block name) })

/-- The scan of `process_stats`: first `.filt` artifact without a
`.stats.json` artifact. -/
def firstPendingStats (fs : FS) : Option (String × String) :=
  (sortedKeys fs.filt).findSome? (fun block =>
    match assocFind fs.filt block with
    | none => none
    | some names =>
      (List.insertionSort strLe names).findSome? (fun name =>
        if strEndsWith name ".filt" then
          if dirHas fs.stats block (strReplace name ".filt" ".stats.json") then none
          else some (block, name)
        else none))

/-- `process_stats` (lines 216-276). -/
def process_stats (fs : FS) : Bool × FS :=
  match firstPendingStats fs with
  | none => (false, fs)
  | some (block, name) =>
    (true, { fs with
      stats := dirInsert fs.stats block (strReplace name ".filt" ".stats.json") })

/-- The scan of `process_high_activity`: first `.filt` artifact without a
`.high_activity.json` artifact. -/
def firstPendingHighActivity (fs : FS) : Option (String × String) :=
  (sortedKeys fs.filt).findSome? (fun block =>
    match assocFind fs.filt block with
    | none => none
    | some names =>
      (List.insertionSort strLe names).findSome? (fun name =>
        if strEndsWith name ".filt" then
          if dirHasD fs.high_activity block
              (strReplace name ".filt" ".high_activity.json") then none
          else some (block, name)
        else none))

/-- `process_high_activity` (lines 279-349). -/
def process_high_activity (K : Kernels) (fs : FS) : Bool × FS :=
  match firstPendingHighActivity fs with
  | none => (false, fs)
  | some (block, name) =>
    (true, { fs with
      high_activity := setNested fs.high_activity block
        (strReplace name ".filt" ".high_activity.json") (K.highActivity block name) })

/-- `process_reference_sorting` (lines 352-426): waits for the reference
segment's shifted and high-activity artifacts, skips only when all four
sorting files exist, and (re)writes the whole sorting directory otherwise. -/
def process_reference_sorting (K : Kernels) (fs : FS) : Bool × FS :=
  match fs.reference_segment with
  | none => (false, fs)
  | some (rb, rs) =>
    if !(dirHasD fs.shifted rb (rs ++ ".filt.shifted")) then (false, fs)
    else if !(dirHasD fs.high_activity rb (rs ++ ".high_activity.json")) then
      (false, fs)
    else
      let done := match assocFind fs.reference_sorting (rb, rs) with
        | some sf => sf.complete
        | none => false
      if done then (false, fs)
      else
        let r := K.coarseSorting rb rs
        (true, { fs with
          reference_sorting := setAssoc fs.reference_sorting (rb, rs)
            ⟨some r.2.1, some r.2.2.1, some r.2.2.2, some r.1⟩ })

/-- numpy `.astype(int)`: truncation toward zero. -/
def qTruncInt (q : ℚ) : Int := Int.tdiv q.num (q.den : Int)

/-- numpy integer fancy indexing `rows[inds, :]`: negative indices count from
the end, an index out of range raises `IndexError` (`none`). -/
def npTake (rows : List (List ℚ)) (inds : List Int) : Option (List (List ℚ)) :=
  inds.mapM (fun i =>
    if 0 ≤ i ∧ i < (rows.length : Int) then some (rows.getD i.toNat [])
    else if -(rows.length : Int) ≤ i ∧ i < 0 then
      some (rows.getD (rows.length - (-i).toNat) [])
    else none)

/-- The scan of `process_spike_sorting` lines 469-495: first `.shifted`
artifact whose spike-sorting directory is incomplete and whose
high-activity artifact exists. -/
def firstPendingSpikeSorting (fs : FS) : Option (String × String) :=
  (sortedKeys fs.shifted).findSome? (fun block =>
    match assocFind fs.shifted block with
    | none => none
    | some entries =>
      (List.insertionSort strLe (entries.map Prod.fst)).findSome? (fun name =>
        if strEndsWith name ".shifted" then
          let seg := strReplace name ".filt.shifted" ""
          let done := match dirFindD fs.spike_sorting block seg with
            | some sf => sf.complete
            | none => false
          if done then none
          else if !(dirHasD fs.high_activity block (seg ++ ".high_activity.json")) then
            none
          else some (block, name)
        else none))

/-- `process_spike_sorting` (`file_processors.py` lines 429-544).  Faithful
to the source, the reference spike frames are recomputed eagerly on every
call (before the per-segment scan), and no exception is caught: an
out-of-range reference spike index or the empty-reference `ValueError`
inside `compute_spike_sorting` escapes the stage as `.error`. -/
def process_spike_sorting (cfg : Config) (fs : FS) :
    Except String (Bool × FS) :=
  match fs.reference_segment with
  | none => .ok (false, fs)
  | some (rb, rs) =>
    match assocFind fs.reference_sorting (rb, rs) with
    | none => .ok (false, fs)
    | some sf =>
      if !sf.complete then .ok (false, fs)
      else
        match dirFindD fs.shifted rb (rs ++ ".filt.shifted") with
        | none => .ok (false, fs)
        | some ref_rows =>
          match npTake ref_rows ((sf.spike_times.getD []).map
              (fun t => qTruncInt (t * cfg.sampling_frequency))) with
          | none => .error "IndexError: reference spike index out of bounds"
          | some ref_frames =>
            match firstPendingSpikeSorting fs with
            | none => .ok (false, fs)
            | some (block, name) =>
              let seg := strReplace name ".filt.shifted" ""
              let rows := (dirFindD fs.shifted block name).getD []
              let ha := (dirFindD fs.high_activity block
                (seg ++ ".high_activity.json")).getD []
              match compute_spike_sorting rows ha ref_frames
                  (sf.spike_labels.getD []) cfg.sampling_frequency
                  cfg.electrode_coords cfg.coarse_sorting_detect_threshold with
              | none => .error "ValueError: Reference waveforms are empty"
              | some (templates, times, labels, amps) =>
                .ok (true, { fs with
                  spike_sorting := setNested fs.spike_sorting block seg
                    ⟨some times, some labels, some amps, some templates⟩ })

/-- The per-block segment collection of `process_epoch_block_spike_sorting`
lines 695-743: the sorted `.bin` raw segment names, each required to have a
complete spike sorting and a parsable `segment_NNN.bin` number (`none`
otherwise — the Python `all_segments_ready = False` path). -/
def epochSegments (fs : FS) (block : String) : Option (List SegmentSorting) :=
  match assocFind fs.raw block with
  | none => none
  | some names =>
    ((List.insertionSort strLe names).filter
        (fun f => strEndsWith f ".bin")).mapM (fun f =>
      match dirFindD fs.spike_sorting block f with
      | some sf =>
        if sf.complete then
          match parseIntStr (strReplace (strReplace f "segment_" "") ".bin" "") with
          | some n => some ⟨sf.spike_times.getD [], sf.spike_labels.getD [],
              sf.spike_amplitudes.getD [], sf.templates.getD [], n⟩
          | none => none
        else none
      | none => none)

/-- The scan of `process_epoch_block_spike_sorting`: first raw block without
a complete epoch-level sorting whose segment list is nonempty and fully
sorted. -/
def firstPendingEpochSorting (fs : FS) : Option (String × List SegmentSorting) :=
  (sortedKeys fs.raw).findSome? (fun block =>
    let done := match assocFind fs.epoch_block_spike_sorting block with
      | some sf => sf.complete
      | none => false
    if done then none
    else
      match epochSegments fs block with
      | none => none
      | some segs => if segs = [] then none else some (block, segs))

/-- `process_epoch_block_spike_sorting` (lines 659-778).  The early
`os.path.exists(spike_sorting_dir)` check on the stage's input root is the
emptiness test on the spike-sorting tree. -/
def process_epoch_block_spike_sorting (cfg : Config) (fs : FS) : Bool × FS :=
  if fs.spike_sorting = [] then (false, fs)
  else
    match firstPendingEpochSorting fs with
    | none => (false, fs)
    | some (block, segs) =>
      let r := compute_epoch_spike_sorting segs cfg.segment_duration_sec
        cfg.n_channels
      (true, { fs with
        epoch_block_spike_sorting := setAssoc fs.epoch_block_spike_sorting block
          ⟨some r.2.1, some r.2.2.1, some r.2.2.2, some r.1⟩ })

/-- The scan of `process_epoch_block_preview` lines 800-827: first block with
a complete epoch sorting, no preview yet, and a nonempty raw segment list. -/
def firstPendingEpochPreview (fs : FS) : Option String :=
  (List.insertionSort strLe (fs.epoch_block_spike_sorting.map Prod.fst)).findSome?
    (fun block =>
      match assocFind fs.epoch_block_spike_sorting block with
      | none => none
      | some sf =>
        if !sf.complete then none
        else if fs.epoch_block_preview.contains block then none
        else
          match assocFind fs.raw block with
          | none => none
          | some names =>
            if names.filter (fun f => strEndsWith f ".bin") = [] then none
            else some block)

/-- `process_epoch_block_preview` (lines 781-858). -/
def process_epoch_block_preview (fs : FS) : Bool × FS :=
  if fs.epoch_block_spike_sorting = [] then (false, fs)
  else
    match firstPendingEpochPreview fs with
    | none => (false, fs)
    | some block =>
      (true, { fs with epoch_block_preview := fs.epoch_block_preview ++ [block] })

/-- The scan of `process_preview` lines 560-618: first `.filt` artifact
without a `.figpack` preview whose shifted, stats and high-activity
dependencies exist; for the reference segment the preview additionally waits
for the complete reference sorting. -/
def firstPendingPreview (fs : FS) : Option (String × String) :=
  (sortedKeys fs.filt).findSome? (fun block =>
    match assocFind fs.filt block with
    | none => none
    | some names =>
      (List.insertionSort strLe names).findSome? (fun name =>
        if strEndsWith name ".filt" then
          let seg := strReplace name ".bin.filt" ".bin"
          if dirHas fs.preview block (seg ++ ".figpack") then none
          else if !(dirHasD fs.shifted block (name ++ ".shifted")) then none
          else if !(dirHas fs.stats block (seg ++ ".stats.json")) then none
          else if !(dirHasD fs.high_activity block (seg ++ ".high_activity.json"))
            then none
          else if fs.reference_segment = some (block, seg) then
            match assocFind fs.reference_sorting (block, seg) with
            | some sf => if sf.complete then some (block, seg) else none
            | none => none
          else some (block, seg)
        else none))

/-- `process_preview` (lines 547-656).  The spike-sorting directory is probed
only to choose the preview's contents, never to gate it. -/
def process_preview (fs : FS) : Bool × FS :=
  match firstPendingPreview fs with
  | none => (false, fs)
  | some (block, seg) =>
    (true, { fs with preview := dirInsert fs.preview block (seg ++ ".figpack") })

/-! ### One iteration of the driver loop (`run_start.py` lines 95-181)

The loop body has no `try`/`except`: the only fallible stage call,
`process_spike_sorting`, propagates its exception out of the tick (and hence
out of `run_start`, killing the process). -/

/-- The six stages between the reference-segment gate and the spike-sorting
call, in source order. -/
def preSortingStages (K : Kernels) (fs0 : FS) : Bool × FS :=
  let r1 := process_filtering fs0
  let r2 := process_shift_coeffs r1.2
  let r3 := process_shifting K r2.2
  let r4 := process_stats r3.2
  let r5 := process_high_activity K r4.2
  let r6 := process_reference_sorting K r5.2
  (r1.1 || r2.1 || r3.1 || r4.1 || r5.1 || r6.1, r6.2)

/-- One pass of the `while True` body: ingest epoch blocks, then — when
`reference_segment.txt` names a segment already materialized in `raw/` — run
the stages in source order.  `something_processed` is the disjunction of the
stage results. -/
def runTick (K : Kernels) (cfg : Config) (fs : FS) : Except String (Bool × FS) :=
  let r0 := process_epoch_blocks cfg fs
  match r0.2.reference_segment with
  | none => .ok r0
  | some (rb, rs) =>
    if dirHas r0.2.raw rb rs then
      let rp := preSortingStages K r0.2
      match process_spike_sorting cfg rp.2 with
      | .error e => .error e
      | .ok r7 =>
        let r8 := process_epoch_block_spike_sorting cfg r7.2
        let r9 := process_epoch_block_preview r8.2
        let r10 := process_preview r9.2
        .ok (r0.1 || rp.1 || r7.1 || r8.1 || r9.1 || r10.1, r10.2)
    else .ok r0

/-! ### The fully-computed artifact tree (claim C7)

One decidable conjunct per stage, each saying "this stage's output exists for
every unit of work it would scan". -/

/-- Every valid acquisition block is materialized in `raw/`. -/
def rawDone (fs : FS) : Bool :=
  (validEpochBlocks fs).all (fun b => (assocFind fs.raw b).isSome)

/-- Every raw `.bin` segment has its `.filt` artifact. -/
def filtDone (fs : FS) : Bool :=
  fs.raw.all (fun p => p.2.all (fun name =>
    !(strEndsWith name ".bin") || dirHas fs.filt p.1 (name ++ ".filt")))

/-- Every `.filt` artifact has its shifted, stats, high-activity and preview
artifacts. -/
def segArtifactsDone (fs : FS) : Bool :=
  fs.filt.all (fun p => p.2.all (fun name =>
    !(strEndsWith name ".filt") ||
      (dirHasD fs.shifted p.1 (name ++ ".shifted") &&
       dirHas fs.stats p.1 (strReplace name ".filt" ".stats.json") &&
       dirHasD fs.high_activity p.1 (strReplace name ".filt" ".high_activity.json") &&
       dirHas fs.preview p.1 (strReplace name ".bin.filt" ".bin" ++ ".figpack"))))

/-- The reference segment, if configured, has a complete reference sorting. -/
def refSortingDone (fs : FS) : Bool :=
  match fs.reference_segment with
  | some r =>
    (match assocFind fs.reference_sorting r with
     | some sf => sf.complete
     | none => false)
  | none => true

/-- Every `.shifted` artifact has a complete spike sorting. -/
def spikeSortingDone (fs : FS) : Bool :=
  fs.shifted.all (fun p => p.2.all (fun q =>
    !(strEndsWith q.1 ".shifted") ||
      (match dirFindD fs.spike_sorting p.1 (strReplace q.1 ".filt.shifted" "") with
       | some sf => sf.complete
       | none => false)))

/-- Every raw block with segments has a complete epoch-level sorting. -/
def epochSortingDone (fs : FS) : Bool :=
  fs.raw.all (fun p =>
    decide (p.2.filter (fun f => strEndsWith f ".bin") = []) ||
      (match assocFind fs.epoch_block_spike_sorting p.1 with
       | some sf => sf.complete
       | none => false))

/-- Every complete epoch-level sorting has its epoch-block preview. -/
def epochPreviewDone (fs : FS) : Bool :=
  fs.epoch_block_spike_sorting.all (fun p =>
    !p.2.complete || fs.epoch_block_preview.contains p.1)

/-- The reference spike times address rows of the reference shifted data —
true of every tree the pipeline itself wrote, and needed because
`process_spike_sorting` recomputes the reference spike frames on every call
even when nothing is pending. -/
def refFramesOk (cfg : Config) (fs : FS) : Bool :=
  match fs.reference_segment with
  | none => true
  | some (rb, rs) =>
    match dirFindD fs.shifted rb (rs ++ ".filt.shifted") with
    | none => true
    | some rows =>
      match assocFind fs.reference_sorting (rb, rs) with
      | none => true
      | some sf =>
        (npTake rows ((sf.spike_times.getD []).map
          (fun t => qTruncInt (t * cfg.sampling_frequency)))).isSome

/-- Every stage's output exists for every unit of work it would scan. -/
def pipelineDone (cfg : Config) (fs : FS) : Bool :=
  rawDone fs && filtDone fs && fs.shift_coeffs && segArtifactsDone fs &&
    refSortingDone fs && spikeSortingDone fs && epochSortingDone fs &&
    epochPreviewDone fs && refFramesOk cfg fs

/-- An arbitrary instantiation of the numeric kernels (their Python sources
are absent from `src/`); the scheduling theorems quantify over `Kernels`,
and the concrete runs below never invoke them. -/
def K0 : Kernels := ⟨fun _ _ => [], fun _ _ => [], fun _ _ => ([], [], [], [])⟩


lemma mem_of_assocFind {κ α : Type} [DecidableEq κ] {l : List (κ × α)} {k : κ}
    {v : α} (h : assocFind l k = some v) : (k, v) ∈ l := by
  unfold assocFind at h
  split at h
  next p hf =>
    cases h
    have hk : p.1 = k := by simpa using List.find?_some hf
    have hmem := List.mem_of_find?_eq_some hf
    have hp : p = (k, p.2) := by rw [← hk]
    exact hp ▸ hmem
  next => cases h

lemma mem_sortedKeys {α : Type} {dir : List (String × α)} {b : String}
    (h : b ∈ sortedKeys dir) : b ∈ dir.map Prod.fst :=
  (List.perm_insertionSort strLe (dir.map Prod.fst)).mem_iff.1 h

lemma firstPendingFilt_none (fs : FS) (h : filtDone fs = true) :
    firstPendingFilt fs = none := by
  unfold firstPendingFilt
  refine List.findSome?_eq_none_iff.2 (fun block hb => ?_)
  dsimp only
  cases haf : assocFind fs.raw block with
  | none => rfl
  | some names =>
    refine List.findSome?_eq_none_iff.2 (fun name hn => ?_)
    have hn' : name ∈ names := (List.perm_insertionSort strLe names).mem_iff.1 hn
    unfold filtDone at h
    have h1 := List.all_eq_true.1 h (block, names) (mem_of_assocFind haf)
    have hall := List.all_eq_true.1 h1 name hn'
    by_cases he : strEndsWith name ".bin" = true
    · rw [he] at hall
      simp only [Bool.not_true, Bool.false_or] at hall
      simp [he, hall]
    · simp [he]

lemma process_filtering_skip (fs : FS) (h : filtDone fs = true) :
    process_filtering fs = (false, fs) := by
  unfold process_filtering
  rw [firstPendingFilt_none fs h]

lemma segArtifacts_of_done {fs : FS} (h : segArtifactsDone fs = true)
    {block : String} {names : List String} (haf : assocFind fs.filt block = some names)
    {name : String} (hn : name ∈ names) (he : strEndsWith name ".filt" = true) :
    dirHasD fs.shifted block (name ++ ".shifted") = true ∧
    dirHas fs.stats block (strReplace name ".filt" ".stats.json") = true ∧
    dirHasD fs.high_activity block (strReplace name ".filt" ".high_activity.json") = true ∧
    dirHas fs.preview block (strReplace name ".bin.filt" ".bin" ++ ".figpack") = true := by
  unfold segArtifactsDone at h
  have h1 := List.all_eq_true.1 h (block, names) (mem_of_assocFind haf)
  have hall := List.all_eq_true.1 h1 name hn
  rw [he] at hall
  simp only [Bool.not_true, Bool.false_or, Bool.and_eq_true] at hall
  obtain ⟨⟨⟨ha, hb⟩, hc⟩, hd⟩ := hall
  exact ⟨ha, hb, hc, hd⟩

lemma firstPendingShift_none (fs : FS) (h : segArtifactsDone fs = true) :
    firstPendingShift fs = none := by
  unfold firstPendingShift
  refine List.findSome?_eq_none_iff.2 (fun block hb => ?_)
  dsimp only
  cases haf : assocFind fs.filt block with
  | none => rfl
  | some names =>
    refine List.findSome?_eq_none_iff.2 (fun name hn => ?_)
    have hn' : name ∈ names := (List.perm_insertionSort strLe names).mem_iff.1 hn
    by_cases he : strEndsWith name ".filt" = true
    · simp [he, (segArtifacts_of_done h haf hn' he).1]
    · simp [he]

lemma process_shifting_skip (K : Kernels) (fs : FS) (h : segArtifactsDone fs = true) :
    process_shifting K fs = (false, fs) := by
  unfold process_shifting
  cases hb : fs.shift_coeffs with
  | false => simp [hb]
  | true => simp [hb, firstPendingShift_none fs h]

lemma firstPendingStats_none (fs : FS) (h : segArtifactsDone fs = true) :
    firstPendingStats fs = none := by
  unfold firstPendingStats
  refine List.findSome?_eq_none_iff.2 (fun block hb => ?_)
  dsimp only
  cases haf : assocFind fs.filt block with
  | none => rfl
  | some names =>
    refine List.findSome?_eq_none_iff.2 (fun name hn => ?_)
    have hn' : name ∈ names := (List.perm_insertionSort strLe names).mem_iff.1 hn
    by_cases he : strEndsWith name ".filt" = true
    · simp [he, (segArtifacts_of_done h haf hn' he).2.1]
    · simp [he]

lemma process_stats_skip (fs : FS) (h : segArtifactsDone fs = true) :
    process_stats fs = (false, fs) := by
  unfold process_stats
  rw [firstPendingStats_none fs h]

lemma firstPendingHighActivity_none (fs : FS) (h : segArtifactsDone fs = true) :
    firstPendingHighActivity fs = none := by
  unfold firstPendingHighActivity
  refine List.findSome?_eq_none_iff.2 (fun block hb => ?_)
  dsimp only
  cases haf : assocFind fs.filt block with
  | none => rfl
  | some names =>
    refine List.findSome?_eq_none_iff.2 (fun name hn => ?_)
    have hn' : name ∈ names := (List.perm_insertionSort strLe names).mem_iff.1 hn
    by_cases he : strEndsWith name ".filt" = true
    · simp [he, (segArtifacts_of_done h haf hn' he).2.2.1]
    · simp [he]

lemma process_high_activity_skip (K : Kernels) (fs : FS)
    (h : segArtifactsDone fs = true) : process_high_activity K fs = (false, fs) := by
  unfold process_high_activity
  rw [firstPendingHighActivity_none fs h]

lemma firstPendingPreview_none (fs : FS) (h : segArtifactsDone fs = true) :
    firstPendingPreview fs = none := by
  unfold firstPendingPreview
  refine List.findSome?_eq_none_iff.2 (fun block hb => ?_)
  dsimp only
  cases haf : assocFind fs.filt block with
  | none => rfl
  | some names =>
    refine List.findSome?_eq_none_iff.2 (fun name hn => ?_)
    have hn' : name ∈ names := (List.perm_insertionSort strLe names).mem_iff.1 hn
    by_cases he : strEndsWith name ".filt" = true
    · simp [he, (segArtifacts_of_done h haf hn' he).2.2.2]
    · simp [he]

lemma process_preview_skip (fs : FS) (h : segArtifactsDone fs = true) :
    process_preview fs = (false, fs) := by
  unfold process_preview
  rw [firstPendingPreview_none fs h]

lemma process_shift_coeffs_skip (fs : FS) (h : fs.shift_coeffs = true) :
    process_shift_coeffs fs = (false, fs) := by
  unfold process_shift_coeffs
  cases href : fs.reference_segment with
  | none => rfl
  | some r => obtain ⟨rb, rs⟩ := r; simp [h]

lemma process_reference_sorting_skip (K : Kernels) (fs : FS)
    (h : refSortingDone fs = true) :
    process_reference_sorting K fs = (false, fs) := by
  unfold process_reference_sorting
  cases href : fs.reference_segment with
  | none => rfl
  | some r =>
    obtain ⟨rb, rs⟩ := r
    unfold refSortingDone at h
    simp only [href] at h
    cases h1 : dirHasD fs.shifted rb (rs ++ ".filt.shifted") with
    | false => simp [h1]
    | true =>
      cases h2 : dirHasD fs.high_activity rb (rs ++ ".high_activity.json") with
      | false => simp [h1, h2]
      | true =>
        cases hsf : assocFind fs.reference_sorting (rb, rs) with
        | none => simp [hsf] at h
        | some sf =>
          simp only [hsf] at h
          simp [h1, h2, hsf, h]

lemma firstPendingSpikeSorting_none (fs : FS) (h : spikeSortingDone fs = true) :
    firstPendingSpikeSorting fs = none := by
  unfold firstPendingSpikeSorting
  refine List.findSome?_eq_none_iff.2 (fun block hb => ?_)
  dsimp only
  cases haf : assocFind fs.shifted block with
  | none => rfl
  | some entries =>
    refine List.findSome?_eq_none_iff.2 (fun name hn => ?_)
    have hn' : name ∈ entries.map Prod.fst :=
      (List.perm_insertionSort strLe (entries.map Prod.fst)).mem_iff.1 hn
    obtain ⟨q, hq, hqname⟩ := List.mem_map.1 hn'
    unfold spikeSortingDone at h
    have h1 := List.all_eq_true.1 h (block, entries) (mem_of_assocFind haf)
    have hall := List.all_eq_true.1 h1 q hq
    rw [hqname] at hall
    by_cases he : strEndsWith name ".shifted" = true
    · rw [he] at hall
      simp only [Bool.not_true, Bool.false_or] at hall
      simp [he, hall]
    · simp [he]

lemma process_spike_sorting_skip (cfg : Config) (fs : FS)
    (href : refSortingDone fs = true) (hfr : refFramesOk cfg fs = true)
    (hss : spikeSortingDone fs = true) :
    process_spike_sorting cfg fs = .ok (false, fs) := by
  unfold process_spike_sorting
  cases hrs : fs.reference_segment with
  | none => rfl
  | some r =>
    obtain ⟨rb, rs⟩ := r
    unfold refSortingDone at href
    simp only [hrs] at href
    unfold refFramesOk at hfr
    simp only [hrs] at hfr
    cases hsf : assocFind fs.reference_sorting (rb, rs) with
    | none => simp [hsf] at href
    | some sf =>
      simp only [hsf] at href
      cases hsh : dirFindD fs.shifted rb (rs ++ ".filt.shifted") with
      | none => simp [hsf, hsh, href]
      | some rows =>
        simp only [hsh, hsf] at hfr
        obtain ⟨frames, hframes⟩ := Option.isSome_iff_exists.1 hfr
        simp [hsf, hsh, href, hframes, firstPendingSpikeSorting_none fs hss]

lemma firstPendingEpochSorting_none (fs : FS) (h : epochSortingDone fs = true) :
    firstPendingEpochSorting fs = none := by
  unfold firstPendingEpochSorting
  refine List.findSome?_eq_none_iff.2 (fun block hb => ?_)
  dsimp only
  cases hdone : (match assocFind fs.epoch_block_spike_sorting block with
      | some sf => sf.complete
      | none => false) with
  | true => simp [hdone]
  | false =>
    simp only [hdone, if_neg Bool.false_ne_true]
    cases haf : assocFind fs.raw block with
    | none => simp [epochSegments, haf]
    | some names =>
      unfold epochSortingDone at h
      have h1 := List.all_eq_true.1 h (block, names) (mem_of_assocFind haf)
      simp only [hdone, Bool.or_false, decide_eq_true_eq] at h1
      have hfil : (List.insertionSort strLe names).filter
          (fun f => strEndsWith f ".bin") = [] :=
        List.Perm.eq_nil (((List.perm_insertionSort strLe names).filter _).trans
          (h1 ▸ List.Perm.refl _))
      have hes : epochSegments fs block = some [] := by
        unfold epochSegments
        simp only [haf]
        rw [hfil]
        rfl
      simp [hes]

lemma process_epoch_block_spike_sorting_skip (cfg : Config) (fs : FS)
    (h : epochSortingDone fs = true) :
    process_epoch_block_spike_sorting cfg fs = (false, fs) := by
  unfold process_epoch_block_spike_sorting
  by_cases hempty : fs.spike_sorting = []
  · simp [hempty]
  · simp [hempty, firstPendingEpochSorting_none fs h]

lemma firstPendingEpochPreview_none (fs : FS) (h : epochPreviewDone fs = true) :
    firstPendingEpochPreview fs = none := by
  unfold firstPendingEpochPreview
  refine List.findSome?_eq_none_iff.2 (fun block hb => ?_)
  dsimp only
  cases haf : assocFind fs.epoch_block_spike_sorting block with
  | none => rfl
  | some sf =>
    unfold epochPreviewDone at h
    have h1 := List.all_eq_true.1 h (block, sf) (mem_of_assocFind haf)
    cases hc : sf.complete with
    | false => simp [hc]
    | true =>
      rw [hc] at h1
      simp only [Bool.not_true, Bool.false_or] at h1
      simp at h1
      simp [hc, h1]

lemma process_epoch_block_preview_skip (fs : FS) (h : epochPreviewDone fs = true) :
    process_epoch_block_preview fs = (false, fs) := by
  unfold process_epoch_block_preview
  by_cases hempty : fs.epoch_block_spike_sorting = []
  · simp [hempty]
  · simp [hempty, firstPendingEpochPreview_none fs h]

lemma processEpochBlocksGo_skip (cfg : Config) (fs : FS) :
    ∀ (names : List String) (acc : Bool),
    (∀ b ∈ names, (assocFind fs.raw b).isSome = true ∨
      (∀ d, assocFind fs.acquisition b = some d →
        readEpochBlockBinary cfg.n_channels d = none)) →
    processEpochBlocksGo cfg fs names acc = (acc, fs) := by
  intro names
  induction names with
  | nil => intro acc _; rfl
  | cons b rest ih =>
    intro acc h
    have hrest := fun x hx => h x (List.mem_cons_of_mem _ hx)
    unfold processEpochBlocksGo
    rcases h b (List.mem_cons_self _ _) with hraw | hread
    · simp only [hraw, if_pos rfl]
      exact ih acc hrest
    · cases hisraw : (assocFind fs.raw b).isSome with
      | true =>
        simp only [hisraw, if_pos rfl]
        exact ih acc hrest
      | false =>
        simp only [hisraw, if_neg Bool.false_ne_true]
        cases hacq : assocFind fs.acquisition b with
        | none => exact ih acc hrest
        | some d =>
          simp only [hread d hacq]
          exact ih acc hrest

lemma process_epoch_blocks_skip (cfg : Config) (fs : FS) (h : rawDone fs = true) :
    process_epoch_blocks cfg fs = (false, fs) := by
  unfold process_epoch_blocks
  by_cases hv : validEpochBlocks fs = []
  · simp [hv]
  · simp only [hv, if_neg hv]
    refine processEpochBlocksGo_skip cfg fs _ false (fun b hb => ?_)
    exact Or.inl (List.all_eq_true.1 (by unfold rawDone at h; exact h) b hb)

lemma preSortingStages_skip (K : Kernels) (fs : FS)
    (c1 : process_filtering fs = (false, fs))
    (c2 : process_shift_coeffs fs = (false, fs))
    (c3 : process_shifting K fs = (false, fs))
    (c4 : process_stats fs = (false, fs))
    (c5 : process_high_activity K fs = (false, fs))
    (c6 : process_reference_sorting K fs = (false, fs)) :
    preSortingStages K fs = (false, fs) := by
  unfold preSortingStages
  rw [c1]; dsimp only
  rw [c2]; dsimp only
  rw [c3]; dsimp only
  rw [c4]; dsimp only
  rw [c5]; dsimp only
  rw [c6]; rfl

/-- A fully-computed one-block artifact tree. -/
def fsW : FS :=
  ⟨[("b1", ⟨true, [("f1.bin", some [1, 2])]⟩)],
   [("b1", ["segment_001.bin"])],
   true,
   [("b1", ["segment_001.bin.filt"])],
   [("b1", [("segment_001.bin.filt.shifted", [[0]])])],
   [("b1", ["segment_001.bin.stats.json"])],
   [("b1", [("segment_001.bin.high_activity.json", [])])],
   [(("b1", "segment_001.bin"), ⟨some [], some [], some [], some []⟩)],
   [("b1", [("segment_001.bin", ⟨some [], some [], some [], some []⟩)])],
   [("b1", ⟨some [], some [], some [], some []⟩)],
   [("b1", ["segment_001.bin.figpack"])],
   ["b1"],
   some ("b1", "segment_001.bin")⟩

def cfgW : Config := ⟨1, 100, 200, 2, [(0, 0)], -80⟩

/-- C7: the pipeline is idempotent over the artifact tree.  On every file
system in which each stage's output paths already exist (`pipelineDone`),
every stage function — the epoch-block ingest included — returns `False`
with the tree unchanged, for every instantiation of the numeric kernels;
consequently a whole driver tick reports nothing processed and rewrites
nothing. -/
theorem C7_pipeline_idempotent_on_complete_tree (K : Kernels) (cfg : Config)
    (fs : FS) (h : pipelineDone cfg fs = true) :
    process_epoch_blocks cfg fs = (false, fs) ∧
    process_filtering fs = (false, fs) ∧
    process_shift_coeffs fs = (false, fs) ∧
    process_shifting K fs = (false, fs) ∧
    process_stats fs = (false, fs) ∧
    process_high_activity K fs = (false, fs) ∧
    process_reference_sorting K fs = (false, fs) ∧
    process_spike_sorting cfg fs = .ok (false, fs) ∧
    process_epoch_block_spike_sorting cfg fs = (false, fs) ∧
    process_epoch_block_preview fs = (false, fs) ∧
    process_preview fs = (false, fs) ∧
    runTick K cfg fs = .ok (false, fs) := by
  unfold pipelineDone at h
  simp only [Bool.and_eq_true] at h
  obtain ⟨⟨⟨⟨⟨⟨⟨⟨hraw, hfilt⟩, hco⟩, hseg⟩, href⟩, hss⟩, hes⟩, hep⟩, hfr⟩ := h
  have c0 := process_epoch_blocks_skip cfg fs hraw
  have c1 := process_filtering_skip fs hfilt
  have c2 := process_shift_coeffs_skip fs hco
  have c3 := process_shifting_skip K fs hseg
  have c4 := process_stats_skip fs hseg
  have c5 := process_high_activity_skip K fs hseg
  have c6 := process_reference_sorting_skip K fs href
  have c7 := process_spike_sorting_skip cfg fs href hfr hss
  have c8 := process_epoch_block_spike_sorting_skip cfg fs hes
  have c9 := process_epoch_block_preview_skip fs hep
  have c10 := process_preview_skip fs hseg
  have hps := preSortingStages_skip K fs c1 c2 c3 c4 c5 c6
  refine ⟨c0, c1, c2, c3, c4, c5, c6, c7, c8, c9, c10, ?_⟩
  unfold runTick
  rw [c0]; dsimp only
  cases hrs : fs.reference_segment with
  | none => rfl
  | some r =>
    obtain ⟨rb, rs⟩ := r
    by_cases hg : dirHas fs.raw rb rs = true
    · simp only [hg, if_true]
      rw [hps]; dsimp only
      rw [c7]; dsimp only
      rw [c8]; dsimp only
      rw [c9]; dsimp only
      rw [c10]; rfl
    · simp only [hg]
      simp

/-- Witness for C7 at a concrete fully-computed one-block tree. -/
theorem C7_pipeline_idempotent_on_complete_tree_witness :
    pipelineDone cfgW fsW = true ∧
    (process_epoch_blocks cfgW fsW = (false, fsW) ∧
    process_filtering fsW = (false, fsW) ∧
    process_shift_coeffs fsW = (false, fsW) ∧
    process_shifting K0 fsW = (false, fsW) ∧
    process_stats fsW = (false, fsW) ∧
    process_high_activity K0 fsW = (false, fsW) ∧
    process_reference_sorting K0 fsW = (false, fsW) ∧
    process_spike_sorting cfgW fsW = .ok (false, fsW) ∧
    process_epoch_block_spike_sorting cfgW fsW = (false, fsW) ∧
    process_epoch_block_preview fsW = (false, fsW) ∧
    process_preview fsW = (false, fsW) ∧
    runTick K0 cfgW fsW = .ok (false, fsW)) :=
  ⟨by decide, C7_pipeline_idempotent_on_complete_tree K0 cfgW fsW (by decide)⟩

/-- A tree ready for spike sorting whose reference sorting is complete but
empty (no reference spikes), and whose one shifted segment contains a clear
threshold-crossing spike: the classification inside `compute_spike_sorting`
will raise the empty-reference `ValueError`. -/
def fsC : FS :=
  ⟨[],
   [("b1", ["segment_001.bin"])],
   true,
   [("b1", ["segment_001.bin.filt"])],
   [("b1", [("segment_001.bin.filt.shifted", [[-100]])])],
   [("b1", ["segment_001.bin.stats.json"])],
   [("b1", [("segment_001.bin.high_activity.json", [])])],
   [(("b1", "segment_001.bin"), ⟨some [], some [], some [], some [[0]]⟩)],
   [],
   [],
   [],
   [],
   some ("b1", "segment_001.bin")⟩

def cfgC : Config := ⟨1, 100, 200, 2, [(0, 0)], -80⟩

/-- Counterexample to C8 as stated: the claim asserts every stage exception
is caught at the stage boundary and turned into "retry next tick", but the
driver loop of `run_start.py` has no `try`/`except` around the stage calls —
on this tree the empty-reference `ValueError` raised inside
`process_spike_sorting` escapes the whole tick (and hence `run_start`)
instead of being caught and retried. -/
theorem C8_stage_exception_escapes_counterexample :
    runTick K0 cfgC fsC = .error "ValueError: Reference waveforms are empty" := by
  rfl

/-- C8 (amended): no stage boundary catches exceptions — whenever the
classification stage raises during a tick (after the ingest and the six
stages that precede it), the error propagates out of the whole driver
iteration instead of being logged and retried. -/
theorem C8_spike_sorting_error_escapes_tick (K : Kernels) (cfg : Config)
    (fs : FS) (rb rs e : String)
    (h1 : (process_epoch_blocks cfg fs).2.reference_segment = some (rb, rs))
    (h2 : dirHas (process_epoch_blocks cfg fs).2.raw rb rs = true)
    (h3 : process_spike_sorting cfg
      (preSortingStages K (process_epoch_blocks cfg fs).2).2 = .error e) :
    runTick K cfg fs = .error e := by
  unfold runTick
  generalize hx : process_epoch_blocks cfg fs = r0 at h1 h2 h3 ⊢
  obtain ⟨b0, fs0⟩ := r0
  replace h1 : fs0.reference_segment = some (rb, rs) := h1
  replace h2 : dirHas fs0.raw rb rs = true := h2
  replace h3 : process_spike_sorting cfg (preSortingStages K fs0).2 = .error e := h3
  simp only [h1, h2, h3, if_true]

/-- Witness for the amended C8 on the concrete tree `fsC`. -/
theorem C8_spike_sorting_error_escapes_tick_witness :
    (process_epoch_blocks cfgC fsC).2.reference_segment
      = some ("b1", "segment_001.bin") ∧
    dirHas (process_epoch_blocks cfgC fsC).2.raw "b1" "segment_001.bin" = true ∧
    runTick K0 cfgC fsC = .error "ValueError: Reference waveforms are empty" :=
  ⟨rfl, rfl, C8_spike_sorting_error_escapes_tick K0 cfgC fsC "b1" "segment_001.bin"
    "ValueError: Reference waveforms are empty" rfl rfl rfl⟩

/-- The per-file results the binary reader keeps when no read raises: each
sorted `.bin` file reshaped, the channel-count mismatches dropped. -/
def binParts (n : Nat) (d : EpochBlockDir) : List (List (List Int)) :=
  (binNames d).filterMap (fun f =>
    match assocFind d.files f with
    | some (some flat) =>
      if flat.length % n = 0 then some (reshapeRows n flat) else none
    | _ => none)

lemma readParts_eq (n : Nat) (files : List (String × Option (List Int))) :
    ∀ bins : List String,
    (∀ f ∈ bins, ∃ flat, assocFind files f = some (some flat)) →
    readParts n files bins = some (bins.filterMap (fun f =>
      match assocFind files f with
      | some (some flat) =>
        if flat.length % n = 0 then some (reshapeRows n flat) else none
      | _ => none)) := by
  intro bins
  induction bins with
  | nil => intro _; rfl
  | cons f rest ih =>
    intro h
    obtain ⟨flat, hf⟩ := h f (List.mem_cons_self _ _)
    unfold readParts
    simp only [hf]
    rw [ih (fun x hx => h x (List.mem_cons_of_mem _ hx))]
    by_cases hmod : flat.length % n = 0
    · simp [List.filterMap_cons, hf, hmod]
    · simp [List.filterMap_cons, hf, hmod]

/-- An acquisition block with one mismatched and one well-sized `.bin`
file. -/
def d9 : EpochBlockDir :=
  ⟨true, [("a.bin", some [1, 2, 3]), ("b.bin", some [4, 5, 6, 7])]⟩

def cfg9 : Config := ⟨2, 100, 1, 2, [(0, 0)], -80⟩

/-- `d9` as the only (unmaterialized) acquisition block. -/
def fs9 : FS :=
  ⟨[("b1", d9)], [], false, [], [], [], [], [], [], [], [], [], none⟩

/-- An acquisition block whose only `.bin` file is unreadable. -/
def fsR : FS :=
  ⟨[("b1", ⟨true, [("x.bin", none)]⟩)],
   [], false, [], [], [], [], [], [], [], [], [], none⟩

/-- Counterexample to C9 as stated: the claim asserts a channel-count
mismatch rejects the whole block, but `_read_epoch_block_binary` skips only
the mismatched file (`continue`) and keeps the rest — with `n_channels = 2`
the 3-sample file `a.bin` is dropped while `b.bin` is reshaped and returned,
and `process_epoch_blocks` then materializes the block's raw directory, so
the block is never retried. -/
theorem C9_mismatched_file_skipped_counterexample :
    readEpochBlockBinary 2 d9 = some [[4, 5], [6, 7]] ∧
    (process_epoch_blocks cfg9 fs9).2.raw
      = [("b1", ["segment_001.bin", "segment_002.bin"])] :=
  ⟨rfl, rfl⟩

/-- C9 (amended): when no read raises, the binary reader drops exactly the
mismatched files and concatenates the remaining `.bin` files in sorted
filename order, returning `none` (whole-block rejection) only when there are
no `.bin` files or every file was mismatched; and a block whose read returns
`none` is skipped with nothing written, so it is retried at the next poll. -/
theorem C9_mismatch_skips_file_not_block :
    (∀ (n : Nat) (d : EpochBlockDir),
      (binNames d).all (fun f =>
        match assocFind d.files f with
        | some (some _) => true
        | _ => false) = true →
      readEpochBlockBinary n d =
        if binNames d = [] then none
        else if binParts n d = [] then none
        else some (binParts n d).flatten) ∧
    (∀ (cfg : Config) (fs : FS),
      (validEpochBlocks fs).all (fun b => (assocFind fs.raw b).isSome ||
        (match assocFind fs.acquisition b with
         | some d => (readEpochBlockBinary cfg.n_channels d).isNone
         | none => true)) = true →
      process_epoch_blocks cfg fs = (false, fs)) := by
  constructor
  · intro n d hall
    have h' : ∀ f ∈ binNames d, ∃ flat, assocFind d.files f = some (some flat) := by
      intro f hf
      have hx := List.all_eq_true.1 hall f hf
      cases haf : assocFind d.files f with
      | none => simp [haf] at hx
      | some o =>
        cases o with
        | none => simp [haf] at hx
        | some flat => exact ⟨flat, rfl⟩
    unfold readEpochBlockBinary
    rw [readParts_eq n d.files (binNames d) h']
    by_cases hbe : binNames d = []
    · simp [hbe]
    · simp only [hbe, if_neg hbe]
      rfl
  · intro cfg fs hall
    unfold process_epoch_blocks
    by_cases hv : validEpochBlocks fs = []
    · simp [hv]
    · simp only [hv, if_neg hv]
      refine processEpochBlocksGo_skip cfg fs _ false (fun b hb => ?_)
      have hx := List.all_eq_true.1 hall b hb
      cases hr : (assocFind fs.raw b).isSome with
      | true => exact Or.inl rfl
      | false =>
        rw [hr] at hx
        simp only [Bool.false_or] at hx
        refine Or.inr (fun d hacq => ?_)
        simp only [hacq] at hx
        exact Option.isNone_iff_eq_none.1 hx

/-- Witness for the amended C9: the mismatched-but-readable block `d9`
(first half) and the unreadable block of `fsR` (second half). -/
theorem C9_mismatch_skips_file_not_block_witness :
    ((binNames d9).all (fun f =>
      match assocFind d9.files f with
      | some (some _) => true
      | _ => false) = true ∧
    readEpochBlockBinary 2 d9 =
      if binNames d9 = [] then none
      else if binParts 2 d9 = [] then none
      else some (binParts 2 d9).flatten) ∧
    ((validEpochBlocks fsR).all (fun b => (assocFind fsR.raw b).isSome ||
      (match assocFind fsR.acquisition b with
       | some d => (readEpochBlockBinary cfg9.n_channels d).isNone
       | none => true)) = true ∧
    process_epoch_blocks cfg9 fsR = (false, fsR)) :=
  ⟨⟨by decide, C9_mismatch_skips_file_not_block.1 2 d9 (by decide)⟩,
   ⟨by decide, C9_mismatch_skips_file_not_block.2 cfg9 fsR (by decide)⟩⟩

end Realtime512b
